import Mathlib

/-!
Verification development for the Johnny Decimal Alfred workflow core.

The Python sources are embedded shallowly:
- `models.py` (typed tree model: `JDId`, `JDCategory`, `JDArea`, `JDex`) as
  Lean structures; Python dicts are modeled as association lists in insertion
  order whose keys are the stored codes (Python dict overwrite semantics are
  modeled by `dictInsertId` and friends, and the flattened dict caches by
  `pyDict`).
- `jd_core.py` (legacy nested-dict variant) as `CatData`, `AreaData`,
  `JDIndexD`.
- `core.py` (scanner and path resolver) over an explicit filesystem tree
  `FSNode` in which a directory carries a `readable` flag; listing an
  unreadable directory (or a file) is a raised `PermissionError`
  (`NotADirectoryError`), modeled as `Except.error`.

Python strings are modeled as Lean `String`; `str.lower`, `\d` and `\s` are
modeled on their ASCII behavior (`Char.toLower`, ASCII digits, the six ASCII
whitespace characters), which covers every string the program manipulates.
Python `sorted` on strings compares code points; it is modeled by
`sortStrings`, an insertion sort over the code-point lexicographic order
(both sorts are stable, so the outputs agree).
-/

/-! ## String utilities shared by the embedding -/

/-- Code-point comparison of characters, as Python compares characters. -/
def charLtB (a b : Char) : Bool := a.toNat < b.toNat

/-- Lexicographic strict order on char lists: Python string `<`. -/
def listLtB : List Char → List Char → Bool
  | [], [] => false
  | [], _ :: _ => true
  | _ :: _, [] => false
  | a :: as, b :: bs =>
    if charLtB a b then true
    else if charLtB b a then false
    else listLtB as bs

/-- Non-strict string order used by Python `sorted` on lists of strings. -/
def strLeB (a b : String) : Bool := ! listLtB b.data a.data

/-- Python `sorted` on a list of strings (stable sort by code points). -/
def sortStrings (l : List String) : List String :=
  List.insertionSort (fun a b => strLeB a b = true) l

/-- Python `int` on a decimal-digit string (total model; the program only
applies it to the two digits following the dot of a well-formed ID code). -/
def strToNat (s : String) : Nat :=
  s.data.foldl (fun a c => a * 10 + (c.toNat - 48)) 0

/-- Python `f"{num:02d}"` for a natural number. -/
def pad2 (n : Nat) : String := if n < 10 then "0" ++ toString n else toString n

/-- Python `f"{code}.{num:02d}"`: format an ID code inside a category. -/
def fmtId (code : String) (n : Nat) : String := code ++ "." ++ pad2 n

/-- Python `int(code.split(".")[1])`: the characters between the first and
second dot, parsed as a number. -/
def idNumOfCode (code : String) : Nat :=
  strToNat (String.mk (((code.data.dropWhile (fun c => c ≠ '.')).drop 1).takeWhile
    (fun c => c ≠ '.')))

/-! ## Typed data model (`models.py`) -/

/-- `models.JDId`: an ID entry. The Python field `section` is `isSection`
here (`section` is a Lean keyword); the private back-reference `_category`
is represented by the position of the ID inside its owning category. -/
structure JDId where
  code : String
  name : String
  isSection : Bool
deriving DecidableEq

/-- `JDId.id_number`. -/
def JDId.idNumber (i : JDId) : Nat := idNumOfCode i.code

/-- `JDId.decade`. -/
def JDId.decade (i : JDId) : Nat := i.idNumber / 10 * 10

/-- `models.JDCategory`: `ids` lists the values of the `_ids` dict in
insertion order (the dict key of each entry is its `code` field). -/
structure JDCategory where
  code : String
  name : String
  ids : List JDId
deriving DecidableEq

/-- `JDCategory.used_slots` (a set; only membership is ever used). -/
def usedSlots (c : JDCategory) : List Nat := c.ids.map JDId.idNumber

/-- `JDCategory.section_ids`. -/
def sectionIds (c : JDCategory) : List JDId := c.ids.filter (fun i => i.isSection)

/-- `JDCategory.section_decades` (a set; only membership is ever used). -/
def sectionDecades (c : JDCategory) : List Nat := (sectionIds c).map JDId.decade

/-- `JDCategory.get_next_available_id`: first `num` in `range(100)` not in
`used_slots`, formatted, else `None`. -/
def getNextAvailableId (c : JDCategory) : Option String :=
  ((List.range 100).find? (fun num => decide (num ∉ usedSlots c))).map (fmtId c.code)

/-- Loop state of `JDCategory.get_available_id_slots`. -/
structure SlotState where
  available : List String
  countInitial : Nat
  decadesCovered : List Nat
deriving DecidableEq

/-- One iteration of the `for num in range(100)` loop of
`JDCategory.get_available_id_slots`. -/
def slotStep (code : String) (used sections : List Nat) (limit : Nat)
    (s : SlotState) (num : Nat) : SlotState :=
  if num ∈ used then s
  else
    let decade := num / 10 * 10
    if decade = 0 ∧ s.countInitial < limit then
      { s with available := s.available ++ [fmtId code num],
               countInitial := s.countInitial + 1 }
    else if decade ∈ sections ∧ decade ∉ s.decadesCovered then
      { s with available := s.available ++ [fmtId code num],
               decadesCovered := s.decadesCovered ++ [decade] }
    else s

/-- `JDCategory.get_available_id_slots`. -/
def getAvailableIdSlots (c : JDCategory) (limit : Nat) : List String :=
  sortStrings (((List.range 100).foldl
    (slotStep c.code (usedSlots c) (sectionDecades c) limit)
    { available := [], countInitial := 0, decadesCovered := [] }).available)

/-! ## Claim C6: next free id -/

theorem find?_append_of_none {α} (p : α → Bool) {l₁ : List α} (l₂ : List α)
    (h : l₁.find? p = none) : (l₁ ++ l₂).find? p = l₂.find? p := by
  induction l₁ with
  | nil => rfl
  | cons a l ih =>
    cases hpa : p a with
    | true => simp [List.find?, hpa] at h
    | false =>
      simp only [List.find?, hpa] at h
      simpa [List.find?, hpa] using ih h

theorem find?_range_eq_some (p : Nat → Bool) (N n : Nat) (hn : n < N)
    (hp : p n = true) (hmin : ∀ m, m < n → p m = false) :
    (List.range N).find? p = some n := by
  have hsplit : List.range N = List.range n ++ (List.range (N - n)).map (n + ·) := by
    rw [← List.range_add]
    congr 1
    omega
  have h1 : (List.range n).find? p = none := by
    rw [List.find?_eq_none]
    intro x hx
    rw [List.mem_range] at hx
    simp [hmin x hx]
  obtain ⟨k, hk⟩ : ∃ k, N - n = k + 1 := ⟨N - n - 1, by omega⟩
  rw [hsplit, find?_append_of_none _ _ h1, hk, List.range_succ_eq_map]
  simp [List.find?, hp]

/-- Claim C6: `get_next_available_id` returns the smallest number in `0..99`
not used by any ID (regular or section) of the category, formatted as
`CC.NN` with zero padding; it returns `CC.00` on an empty category, and
returns `none` exactly when all one hundred numbers are used. -/
theorem C6_next_free_id (c : JDCategory) :
    (getNextAvailableId c = none ↔ ∀ n, n < 100 → n ∈ usedSlots c)
    ∧ (∀ n, n < 100 → n ∉ usedSlots c → (∀ m, m < n → m ∈ usedSlots c) →
        getNextAvailableId c = some (c.code ++ "." ++ pad2 n))
    ∧ (c.ids = [] → getNextAvailableId c = some (c.code ++ ".00")) := by
  refine ⟨?_, ?_, ?_⟩
  · constructor
    · intro h n hn
      unfold getNextAvailableId at h
      rw [Option.map_eq_none'] at h
      rw [List.find?_eq_none] at h
      have := h n (List.mem_range.2 hn)
      simpa using this
    · intro h
      unfold getNextAvailableId
      rw [Option.map_eq_none', List.find?_eq_none]
      intro n hn
      simp [h n (List.mem_range.1 hn)]
  · intro n hn hnot hmin
    unfold getNextAvailableId
    rw [find?_range_eq_some _ 100 n hn (by simpa using hnot)
      (fun m hm => by simp [hmin m hm])]
    rfl
  · intro h
    have h0 : getNextAvailableId c = some (c.code ++ "." ++ pad2 0) := by
      unfold getNextAvailableId
      rw [find?_range_eq_some _ 100 0 (by omega) (by simp [usedSlots, h])
        (fun m hm => by omega)]
      rfl
    rw [h0, String.append_assoc]
    rfl

/-- Witness for C6 at a concrete category: the empty category `21` gets
`21.00`. -/
theorem C6_next_free_id_witness :
    getNextAvailableId { code := "21", name := "21 Demo", ids := [] } = some "21.00" :=
  (C6_next_free_id _).2.2 rfl


/-! ## Order facts about the string comparison -/

theorem char_eq_of_toNat_eq {a b : Char} (h : a.toNat = b.toNat) : a = b :=
  Char.ext (UInt32.ext h)

theorem listLtB_irrefl : ∀ x : List Char, listLtB x x = false
  | [] => rfl
  | a :: as => by
    have h : charLtB a a = false := by simp [charLtB]
    simp [listLtB, h, listLtB_irrefl as]

theorem listLtB_trans : ∀ (x y z : List Char),
    listLtB x y = true → listLtB y z = true → listLtB x z = true
  | [], [], _, h1, _ => by simp [listLtB] at h1
  | _ :: _, [], _, h1, _ => by simp [listLtB] at h1
  | _, _ :: _, [], _, h2 => by simp [listLtB] at h2
  | [], _ :: _, _ :: _, _, _ => rfl
  | a :: as, b :: bs, c :: cs, h1, h2 => by
    simp only [listLtB, charLtB] at h1 h2 ⊢
    by_cases hab : a.toNat < b.toNat
    · by_cases hbc : b.toNat < c.toNat
      · have hac : a.toNat < c.toNat := by omega
        simp [hac]
      · by_cases hcb : c.toNat < b.toNat
        · simp [hbc, hcb] at h2
        · have hac : a.toNat < c.toNat := by omega
          simp [hac]
    · by_cases hba : b.toNat < a.toNat
      · simp [hab, hba] at h1
      · by_cases hbc : b.toNat < c.toNat
        · have hac : a.toNat < c.toNat := by omega
          simp [hac]
        · by_cases hcb : c.toNat < b.toNat
          · simp [hbc, hcb] at h2
          · simp [hab, hba] at h1
            simp [hbc, hcb] at h2
            have hac : ¬ a.toNat < c.toNat := by omega
            have hca : ¬ c.toNat < a.toNat := by omega
            simp [hac, hca]
            exact listLtB_trans as bs cs h1 h2

theorem listLtB_eq_of_not : ∀ (x y : List Char),
    listLtB x y = false → listLtB y x = false → x = y
  | [], [], _, _ => rfl
  | [], _ :: _, h1, _ => by simp [listLtB] at h1
  | _ :: _, [], _, h2 => by simp [listLtB] at h2
  | a :: as, b :: bs, h1, h2 => by
    simp only [listLtB, charLtB] at h1 h2
    by_cases hab : a.toNat < b.toNat
    · simp [hab] at h1
    · by_cases hba : b.toNat < a.toNat
      · simp [hab, hba] at h2
      · simp [hab, hba] at h1 h2
        have hcb : a = b := char_eq_of_toNat_eq (by omega)
        rw [hcb, listLtB_eq_of_not as bs h1 h2]

theorem listLtB_asymm {x y : List Char} (h : listLtB x y = true) : listLtB y x = false := by
  cases hyx : listLtB y x with
  | false => rfl
  | true =>
    exfalso
    have htx := listLtB_trans x y x h hyx
    rw [listLtB_irrefl x] at htx
    exact Bool.noConfusion htx

theorem strLeB_total (a b : String) : strLeB a b = true ∨ strLeB b a = true := by
  unfold strLeB
  cases h : listLtB b.data a.data with
  | false => left; rfl
  | true => right; rw [listLtB_asymm h]; rfl

theorem strLeB_trans {a b c : String} (h1 : strLeB a b = true) (h2 : strLeB b c = true) :
    strLeB a c = true := by
  unfold strLeB at h1 h2 ⊢
  rw [Bool.not_eq_true'] at h1 h2
  rw [Bool.not_eq_true']
  cases hca : listLtB c.data a.data with
  | false => rfl
  | true =>
    exfalso
    cases hab : listLtB a.data b.data with
    | true =>
      have hcb := listLtB_trans c.data a.data b.data hca hab
      rw [hcb] at h2
      exact Bool.noConfusion h2
    | false =>
      have hab2 : a.data = b.data := listLtB_eq_of_not a.data b.data hab h1
      rw [hab2] at hca
      rw [hca] at h2
      exact Bool.noConfusion h2

theorem strLeB_antisymm {a b : String} (h1 : strLeB a b = true) (h2 : strLeB b a = true) :
    a = b := by
  unfold strLeB at h1 h2
  rw [Bool.not_eq_true'] at h1 h2
  cases a with
  | mk la =>
    cases b with
    | mk lb =>
      have hd : la = lb := listLtB_eq_of_not la lb h2 h1
      rw [hd]

instance : IsTotal String (fun a b => strLeB a b = true) := ⟨strLeB_total⟩

instance : IsTrans String (fun a b => strLeB a b = true) := ⟨fun _ _ _ => strLeB_trans⟩

/-! ## Characterizing the `get_available_id_slots` loop -/

/-- The unused numbers of a list of candidate numbers, in order. -/
def unusedNums (used : List Nat) (l : List Nat) : List Nat :=
  l.filter (fun n => decide (n ∉ used))

/-- The ten numbers of the decade starting at `d`. -/
def decadeRange (d : Nat) : List Nat := (List.range 10).map (fun j => d + j)

/-- The nine non-zero decade values. -/
def nonzeroDecades : List Nat := [10, 20, 30, 40, 50, 60, 70, 80, 90]

theorem slot_chunk_skip (code : String) (used sections : List Nat) (limit : Nat)
    (d : Nat) (l : List Nat) :
    ∀ s : SlotState, (∀ n ∈ l, n / 10 * 10 = d) →
    (d = 0 → limit ≤ s.countInitial) →
    (d ∉ sections ∨ d ∈ s.decadesCovered) →
    l.foldl (slotStep code used sections limit) s = s := by
  induction l with
  | nil => intro s _ _ _; rfl
  | cons n rest ih =>
    intro s hl h0 hb
    have hd : n / 10 * 10 = d := hl n (List.mem_cons_self n rest)
    have hstep : slotStep code used sections limit s n = s := by
      by_cases hu : n ∈ used
      · simp [slotStep, hu]
      · have h1 : ¬ (n / 10 * 10 = 0 ∧ s.countInitial < limit) := by
          rw [hd]
          rintro ⟨rfl, hc⟩
          exact absurd hc (Nat.not_lt.2 (h0 rfl))
        have h2 : ¬ (n / 10 * 10 ∈ sections ∧ n / 10 * 10 ∉ s.decadesCovered) := by
          rw [hd]
          rintro ⟨hs, hc⟩
          rcases hb with hb | hb
          · exact hb hs
          · exact hc hb
        simp only [slotStep, if_neg hu]
        rw [if_neg h1, if_neg h2]
    rw [List.foldl_cons, hstep]
    exact ih s (fun m hm => hl m (List.mem_cons_of_mem n hm)) h0 hb

theorem slot_chunk_nz (code : String) (used sections : List Nat) (limit : Nat)
    (d : Nat) (l : List Nat) :
    ∀ s : SlotState, (∀ n ∈ l, n / 10 * 10 = d) → d ≠ 0 →
    d ∈ sections → d ∉ s.decadesCovered →
    (l.foldl (slotStep code used sections limit) s).available
      = s.available ++ ((unusedNums used l).take 1).map (fmtId code)
    ∧ (l.foldl (slotStep code used sections limit) s).countInitial = s.countInitial
    ∧ (l.foldl (slotStep code used sections limit) s).decadesCovered
      = s.decadesCovered ++ (if unusedNums used l = [] then [] else [d]) := by
  induction l with
  | nil => intro s _ _ _ _; simp [unusedNums]
  | cons n rest ih =>
    intro s hl hd hsec hcov
    have hdn : n / 10 * 10 = d := hl n (List.mem_cons_self n rest)
    by_cases hu : n ∈ used
    · have hstep : slotStep code used sections limit s n = s := by simp [slotStep, hu]
      have hfilter : unusedNums used (n :: rest) = unusedNums used rest := by
        simp [unusedNums, List.filter_cons, hu]
      rw [List.foldl_cons, hstep, hfilter]
      exact ih s (fun m hm => hl m (List.mem_cons_of_mem n hm)) hd hsec hcov
    · have h1 : ¬ (d = 0 ∧ s.countInitial < limit) := by
        rintro ⟨rfl, _⟩
        exact hd rfl
      have h2 : d ∈ sections ∧ d ∉ s.decadesCovered := ⟨hsec, hcov⟩
      have hstep : slotStep code used sections limit s n
          = { s with available := s.available ++ [fmtId code n],
                     decadesCovered := s.decadesCovered ++ [d] } := by
        simp only [slotStep, if_neg hu]
        rw [hdn, if_neg h1, if_pos h2]
      have hrest := slot_chunk_skip code used sections limit d rest
        { s with available := s.available ++ [fmtId code n],
                 decadesCovered := s.decadesCovered ++ [d] }
        (fun m hm => hl m (List.mem_cons_of_mem n hm))
        (fun h => absurd h hd)
        (Or.inr (by simp))
      rw [List.foldl_cons, hstep, hrest]
      have hfilter : unusedNums used (n :: rest) = n :: unusedNums used rest := by
        simp [unusedNums, List.filter_cons, hu]
      rw [hfilter]
      refine ⟨by simp, rfl, by simp⟩

theorem slot_chunk_nz_total (code : String) (used sections : List Nat) (limit : Nat)
    (d : Nat) (l : List Nat) :
    ∀ s : SlotState, (∀ n ∈ l, n / 10 * 10 = d) → d ≠ 0 → d ∉ s.decadesCovered →
    (l.foldl (slotStep code used sections limit) s).available
      = s.available ++ (if d ∈ sections then ((unusedNums used l).take 1).map (fmtId code) else [])
    ∧ (∀ x, x ∈ (l.foldl (slotStep code used sections limit) s).decadesCovered →
        x ∈ s.decadesCovered ∨ x = d) := by
  intro s hl hd hcov
  by_cases hsec : d ∈ sections
  · obtain ⟨ha, _, hc⟩ := slot_chunk_nz code used sections limit d l s hl hd hsec hcov
    refine ⟨by rw [ha, if_pos hsec], ?_⟩
    intro x hx
    rw [hc] at hx
    rcases List.mem_append.1 hx with hx | hx
    · exact Or.inl hx
    · right
      by_cases hemp : unusedNums used l = []
      · rw [if_pos hemp] at hx
        simp at hx
      · rw [if_neg hemp] at hx
        simpa using hx
  · have hskip := slot_chunk_skip code used sections limit d l s hl
      (fun h => absurd h hd) (Or.inl hsec)
    rw [hskip, if_neg hsec]
    exact ⟨by simp, fun x hx => Or.inl hx⟩

theorem slot_chunks_fold (code : String) (used sections : List Nat) (limit : Nat)
    (ds : List Nat) :
    ∀ s : SlotState, (∀ d ∈ ds, d % 10 = 0 ∧ d ≠ 0 ∧ d ∉ s.decadesCovered) → ds.Nodup →
    ((ds.flatMap decadeRange).foldl (slotStep code used sections limit) s).available
      = s.available ++ ds.flatMap (fun d =>
          if d ∈ sections then ((unusedNums used (decadeRange d)).take 1).map (fmtId code)
          else [])
    ∧ (∀ x, x ∈ ((ds.flatMap decadeRange).foldl
          (slotStep code used sections limit) s).decadesCovered →
        x ∈ s.decadesCovered ∨ x ∈ ds) := by
  induction ds with
  | nil => intro s _ _; simp
  | cons d ds' ih =>
    intro s hds hnd
    obtain ⟨hd10, hd0, hdcov⟩ := hds d (List.mem_cons_self d ds')
    have hl : ∀ n ∈ decadeRange d, n / 10 * 10 = d := by
      intro n hn
      simp only [decadeRange, List.mem_map, List.mem_range] at hn
      obtain ⟨j, hj, rfl⟩ := hn
      omega
    obtain ⟨ha1, hm1⟩ :=
      slot_chunk_nz_total code used sections limit d (decadeRange d) s hl hd0 hdcov
    have hds' : ∀ e ∈ ds', e % 10 = 0 ∧ e ≠ 0
        ∧ e ∉ ((decadeRange d).foldl (slotStep code used sections limit) s).decadesCovered := by
      intro e he
      obtain ⟨he10, he0, hecov⟩ := hds e (List.mem_cons_of_mem d he)
      refine ⟨he10, he0, fun hmem => ?_⟩
      rcases hm1 e hmem with h | h
      · exact hecov h
      · rw [h] at he
        exact (List.nodup_cons.1 hnd).1 he
    obtain ⟨ha2, hm2⟩ := ih ((decadeRange d).foldl (slotStep code used sections limit) s)
      hds' (List.nodup_cons.1 hnd).2
    constructor
    · rw [List.flatMap_cons, List.foldl_append, ha2, ha1, List.flatMap_cons, List.append_assoc]
    · intro x hx
      rw [List.flatMap_cons, List.foldl_append] at hx
      rcases hm2 x hx with h | h
      · rcases hm1 x h with h2 | h2
        · exact Or.inl h2
        · exact Or.inr (h2 ▸ List.mem_cons_self d ds')
      · exact Or.inr (List.mem_cons_of_mem d h)

theorem slot_chunk_zero (code : String) (used sections : List Nat) (limit : Nat)
    (l : List Nat) :
    ∀ s : SlotState, (∀ n ∈ l, n / 10 * 10 = 0) →
    (l.foldl (slotStep code used sections limit) s).available
      = s.available
        ++ ((unusedNums used l).take (limit - s.countInitial)).map (fmtId code)
        ++ (if 0 ∈ sections ∧ 0 ∉ s.decadesCovered then
              (((unusedNums used l).drop (limit - s.countInitial)).take 1).map (fmtId code)
            else [])
    ∧ (∀ x, x ∈ (l.foldl (slotStep code used sections limit) s).decadesCovered →
        x ∈ s.decadesCovered ∨ x = 0) := by
  induction l with
  | nil =>
    intro s _
    constructor
    · simp [unusedNums]
    · intro x hx
      exact Or.inl hx
  | cons n rest ih =>
    intro s hl
    have hdn : n / 10 * 10 = 0 := hl n (List.mem_cons_self n rest)
    have hlrest : ∀ m ∈ rest, m / 10 * 10 = 0 := fun m hm => hl m (List.mem_cons_of_mem n hm)
    by_cases hu : n ∈ used
    · have hstep : slotStep code used sections limit s n = s := by simp [slotStep, hu]
      have hfilter : unusedNums used (n :: rest) = unusedNums used rest := by
        simp [unusedNums, List.filter_cons, hu]
      rw [List.foldl_cons, hstep, hfilter]
      exact ih s hlrest
    · have hfilter : unusedNums used (n :: rest) = n :: unusedNums used rest := by
        simp [unusedNums, List.filter_cons, hu]
      by_cases hc : s.countInitial < limit
      · have h1 : (0 : Nat) = 0 ∧ s.countInitial < limit := ⟨rfl, hc⟩
        have hstep : slotStep code used sections limit s n
            = { s with available := s.available ++ [fmtId code n],
                       countInitial := s.countInitial + 1 } := by
          simp only [slotStep, if_neg hu]
          rw [hdn, if_pos h1]
        obtain ⟨iha, ihc⟩ := ih { s with available := s.available ++ [fmtId code n],
                                         countInitial := s.countInitial + 1 } hlrest
        rw [List.foldl_cons, hstep]
        obtain ⟨j, hj⟩ : ∃ j, limit - s.countInitial = j + 1 := ⟨limit - s.countInitial - 1, by omega⟩
        have hj2 : limit - (s.countInitial + 1) = j := by omega
        constructor
        · rw [iha, hfilter, hj, hj2]
          simp [List.append_assoc]
        · intro x hx
          exact ihc x hx
      · have hk : limit - s.countInitial = 0 := by omega
        by_cases hcond : 0 ∈ sections ∧ 0 ∉ s.decadesCovered
        · have h1 : ¬ ((0 : Nat) = 0 ∧ s.countInitial < limit) := by
            rintro ⟨_, h⟩
            exact hc h
          have hstep : slotStep code used sections limit s n
              = { s with available := s.available ++ [fmtId code n],
                         decadesCovered := s.decadesCovered ++ [(0 : Nat)] } := by
            simp only [slotStep, if_neg hu]
            rw [hdn, if_neg h1, if_pos hcond]
          have hrest := slot_chunk_skip code used sections limit 0 rest
            { s with available := s.available ++ [fmtId code n],
                     decadesCovered := s.decadesCovered ++ [(0 : Nat)] }
            hlrest (fun _ => Nat.not_lt.1 hc) (Or.inr (by simp))
          rw [List.foldl_cons, hstep, hrest]
          constructor
          · rw [hfilter, hk, if_pos hcond]
            simp
          · intro x hx
            simp only [List.mem_append, List.mem_singleton] at hx
            rcases hx with hx | hx
            · exact Or.inl hx
            · exact Or.inr hx
        · have h1 : ¬ ((0 : Nat) = 0 ∧ s.countInitial < limit) := by
            rintro ⟨_, h⟩
            exact hc h
          have hstep : slotStep code used sections limit s n = s := by
            simp only [slotStep, if_neg hu]
            rw [hdn, if_neg h1, if_neg hcond]
          obtain ⟨iha, ihc⟩ := ih s hlrest
          rw [List.foldl_cons, hstep]
          constructor
          · rw [iha, hfilter, hk, if_neg hcond, if_neg hcond]
            simp
          · exact ihc

/-! ## Claim C1: curated available slots -/

/-- Claim C1, formalized as stated: a non-zero decade contributes a slot only
when it has a section header at exactly `NN = decade` (a used, section-flagged
ID whose number equals the decade value); decade `0` contributes up to
`limit` unused numbers; the result is sorted ascending. -/
def claimSlotsC1 (c : JDCategory) (limit : Nat) : List String :=
  sortStrings
    (((unusedNums (usedSlots c) (decadeRange 0)).take limit).map (fmtId c.code)
      ++ nonzeroDecades.flatMap (fun d =>
          if c.ids.any (fun i => i.isSection && (i.idNumber == d)) then
            ((unusedNums (usedSlots c) (decadeRange d)).take 1).map (fmtId c.code)
          else []))

/-- What `get_available_id_slots` actually computes: decade `0` contributes
its first `limit` unused numbers, plus one extra unused number when decade
`0` itself contains a section-flagged ID; every non-zero decade containing a
section-flagged ID anywhere in it (not only at the decade boundary)
contributes its first unused number; the result is sorted ascending. -/
def amendedSlots (c : JDCategory) (limit : Nat) : List String :=
  sortStrings
    (((unusedNums (usedSlots c) (decadeRange 0)).take limit).map (fmtId c.code)
      ++ (if 0 ∈ sectionDecades c then
            (((unusedNums (usedSlots c) (decadeRange 0)).drop limit).take 1).map (fmtId c.code)
          else [])
      ++ nonzeroDecades.flatMap (fun d =>
          if d ∈ sectionDecades c then
            ((unusedNums (usedSlots c) (decadeRange d)).take 1).map (fmtId c.code)
          else []))

/-- A category whose only ID is a section marker at `11.15` (section inside
decade 10, but not at the decade boundary `11.10`). -/
def catC1 : JDCategory :=
  { code := "11", name := "11 Test",
    ids := [{ code := "11.15", name := "11.15 ■ Archive", isSection := true }] }

set_option maxRecDepth 4000 in
/-- Counterexample to claim C1 as stated: with a section-flagged ID at
`11.15` (number 15, not equal to its decade value 10), the code still offers
slot `11.10`, while the claim predicts no slot from decade 10 because no
section header sits at exactly the decade value. -/
theorem C1_counterexample :
    getAvailableIdSlots catC1 3 = ["11.00", "11.01", "11.02", "11.10"]
    ∧ claimSlotsC1 catC1 3 = ["11.00", "11.01", "11.02"]
    ∧ getAvailableIdSlots catC1 3 ≠ claimSlotsC1 catC1 3 := by
  refine ⟨by decide, by decide, by decide⟩

/-- Claim C1 (amended): `get_available_id_slots` returns, sorted ascending,
the first `limit` unused numbers of decade 0, plus one extra unused number
of decade 0 when decade 0 contains a section-flagged ID, plus the first
unused number of every non-zero decade that contains a section-flagged ID
anywhere in it; other decades contribute nothing. -/
theorem C1_available_slots (c : JDCategory) (limit : Nat) :
    getAvailableIdSlots c limit = amendedSlots c limit
    ∧ List.Sorted (fun a b => strLeB a b = true) (getAvailableIdSlots c limit) := by
  constructor
  · unfold getAvailableIdSlots amendedSlots
    congr 1
    have hsplit : List.range 100 = decadeRange 0 ++ nonzeroDecades.flatMap decadeRange := by
      decide
    rw [hsplit, List.foldl_append]
    obtain ⟨hza, hzc⟩ := slot_chunk_zero c.code (usedSlots c) (sectionDecades c) limit
      (decadeRange 0) { available := [], countInitial := 0, decadesCovered := [] }
      (by decide)
    have hds : ∀ d ∈ nonzeroDecades, d % 10 = 0 ∧ d ≠ 0
        ∧ d ∉ ((decadeRange 0).foldl
            (slotStep c.code (usedSlots c) (sectionDecades c) limit)
            { available := [], countInitial := 0, decadesCovered := [] }).decadesCovered := by
      intro d hd
      have hd0 : d % 10 = 0 ∧ d ≠ 0 := by
        simp [nonzeroDecades] at hd
        rcases hd with rfl | rfl | rfl | rfl | rfl | rfl | rfl | rfl | rfl <;> simp
      refine ⟨hd0.1, hd0.2, fun hmem => ?_⟩
      rcases hzc d hmem with h | h
      · simp at h
      · exact hd0.2 h
    obtain ⟨ha, _⟩ := slot_chunks_fold c.code (usedSlots c) (sectionDecades c) limit
      nonzeroDecades
      ((decadeRange 0).foldl (slotStep c.code (usedSlots c) (sectionDecades c) limit)
        { available := [], countInitial := 0, decadesCovered := [] })
      hds (by decide)
    rw [ha, hza]
    simp [List.append_assoc]
  · exact List.sorted_insertionSort _ _

/-! ## Legacy nested-dict model (`jd_core.py`) -/

/-- An entry of the legacy `ids` dict: `{"name": ..., "section"?: true}`. -/
structure IdData where
  name : String
  isSection : Bool
deriving DecidableEq

/-- An entry of the legacy `categories` dict. -/
structure CatData where
  name : String
  ids : List (String × IdData)
deriving DecidableEq

/-- An entry of the legacy `areas` dict. -/
structure AreaData where
  name : String
  categories : List (String × CatData)
deriving DecidableEq

/-- The legacy index: `{"areas": {...}}`, dicts as association lists in
insertion order. -/
structure JDIndexD where
  areas : List (String × AreaData)
deriving DecidableEq

/-- The `for area_data in index.get("areas", {}).values()` loop of
`get_next_id` and `get_available_ids`: the first area whose `categories`
dict contains `catCode` supplies the category data. -/
def findCatData (idx : JDIndexD) (catCode : String) : Option CatData :=
  match idx.areas.find? (fun a => a.2.categories.any (fun p => p.1 == catCode)) with
  | none => none
  | some a => (a.2.categories.find? (fun p => p.1 == catCode)).map (fun p => p.2)

/-- Numbers of the non-section IDs (`existing` in `jd_core.py`). -/
def existingNums (ids : List (String × IdData)) : List Nat :=
  (ids.filter (fun p => ! p.2.isSection)).map (fun p => idNumOfCode p.1)

/-- Numbers of the section IDs (`sections` in `jd_core.py`). -/
def sectionNums (ids : List (String × IdData)) : List Nat :=
  (ids.filter (fun p => p.2.isSection)).map (fun p => idNumOfCode p.1)

/-- `jd_core.get_next_id`. -/
def getNextId (catCode : String) (idx : JDIndexD) : Option String :=
  match findCatData idx catCode with
  | none => some (catCode ++ ".00")
  | some cd =>
    ((List.range 100).find? (fun num =>
      decide (num ∉ existingNums cd.ids) && decide (num ∉ sectionNums cd.ids))).map
      (fmtId catCode)

/-- Loop state of `jd_core.get_available_ids`. -/
structure JcState where
  available : List String
  countBeforeSections : Nat
deriving DecidableEq

/-- One iteration of the `for num in range(100)` loop of
`jd_core.get_available_ids`; `has_from_decade` re-parses the numbers of the
entries accumulated so far (`int(a.split(".")[1]) // 10 * 10 == decade`). -/
def jcStep (catCode : String) (existing sections : List Nat) (limit : Nat)
    (s : JcState) (num : Nat) : JcState :=
  if num ∈ existing ∨ num ∈ sections then s
  else
    let decade := num / 10 * 10
    if decade = 0 ∧ s.countBeforeSections < limit then
      { available := s.available ++ [fmtId catCode num],
        countBeforeSections := s.countBeforeSections + 1 }
    else if decade ∈ sections then
      if s.available.any (fun a => idNumOfCode a / 10 * 10 == decade) then s
      else { s with available := s.available ++ [fmtId catCode num] }
    else s

/-- `jd_core.get_available_ids`. -/
def getAvailableIds (catCode : String) (idx : JDIndexD) (limit : Nat) : List String :=
  match findCatData idx catCode with
  | none => (List.range limit).map (fun num => fmtId catCode num)
  | some cd =>
    sortStrings (((List.range 100).foldl
      (jcStep catCode (existingNums cd.ids) (sectionNums cd.ids) limit)
      { available := [], countBeforeSections := 0 }).available)

/-! ## Helper facts for the equivalence C5 -/

theorem strToNat_pad2 : ∀ n, n < 100 → strToNat (pad2 n) = n := by decide

theorem pad2_no_dot : ∀ n, n < 100 → ∀ c ∈ (pad2 n).data, c ≠ '.' := by decide

theorem dropWhile_append_of_all {α} (p : α → Bool) {l₁ : List α} (l₂ : List α)
    (h : ∀ c ∈ l₁, p c = true) : (l₁ ++ l₂).dropWhile p = l₂.dropWhile p := by
  induction l₁ with
  | nil => rfl
  | cons a l ih =>
    rw [List.cons_append, List.dropWhile_cons_of_pos (h a (List.mem_cons_self a l))]
    exact ih (fun c hc => h c (List.mem_cons_of_mem a hc))

theorem takeWhile_eq_self_of_all {α} (p : α → Bool) {l : List α}
    (h : ∀ c ∈ l, p c = true) : l.takeWhile p = l := by
  induction l with
  | nil => rfl
  | cons a l ih =>
    rw [List.takeWhile_cons_of_pos (h a (List.mem_cons_self a l))]
    rw [ih (fun c hc => h c (List.mem_cons_of_mem a hc))]

theorem idNumOfCode_fmtId (code : String) (hdot : code.data.contains '.' = false)
    (n : Nat) (hn : n < 100) : idNumOfCode (fmtId code n) = n := by
  have hdotmem : '.' ∉ code.data := by simpa using hdot
  have hnotin : ∀ c ∈ code.data, (c ≠ '.' : Bool) = true := by
    intro c hc
    simp only [ne_eq, decide_eq_true_eq]
    intro hcdot
    rw [hcdot] at hc
    exact hdotmem hc
  have hdata : (fmtId code n).data = code.data ++ ('.' :: (pad2 n).data) := by
    show (code.data ++ ".".data) ++ (pad2 n).data = _
    simp
  unfold idNumOfCode
  rw [hdata, dropWhile_append_of_all _ _ hnotin]
  rw [List.dropWhile_cons_of_neg (by simp)]
  rw [List.drop_one, List.tail_cons]
  rw [takeWhile_eq_self_of_all _ (by
    intro c hc
    simp only [ne_eq, decide_eq_true_eq]
    exact pad2_no_dot n hn c hc)]
  have : String.mk (pad2 n).data = pad2 n := rfl
  rw [this]
  exact strToNat_pad2 n hn

theorem foldl_rel {α β γ : Type} (R : α → β → Prop) (F : α → γ → α) (G : β → γ → β) :
    ∀ (l : List γ) (s : α) (t : β), R s t →
    (∀ s t n, n ∈ l → R s t → R (F s n) (G t n)) →
    R (l.foldl F s) (l.foldl G t) := by
  intro l
  induction l with
  | nil => intro s t h _; exact h
  | cons n rest ih =>
    intro s t h hstep
    exact ih (F s n) (G t n) (hstep s t n (List.mem_cons_self n rest) h)
      (fun s t m hm hr => hstep s t m (List.mem_cons_of_mem n hm) hr)

/-- Simulation relation between the typed and legacy slot loops: same
accumulated entries, same initial-decade count, and a decade is recorded as
covered in the typed state exactly when the legacy `has_from_decade` re-scan
finds an entry of that (non-zero) decade. -/
abbrev SlotRel (s : SlotState) (t : JcState) : Prop :=
  t.available = s.available
  ∧ t.countBeforeSections = s.countInitial
  ∧ (∀ d, d ≠ 0 →
      (d ∈ s.decadesCovered ↔ t.available.any (fun a => idNumOfCode a / 10 * 10 == d) = true))

theorem slots_step_equiv (code : String) (used existing sections secD : List Nat)
    (limit : Nat)
    (Hused : ∀ n, n ∈ used ↔ (n ∈ existing ∨ n ∈ sections))
    (Hsec : ∀ d, d ∈ secD ↔ d ∈ sections)
    (H0 : (0 : Nat) ∉ sections)
    (H0D : (0 : Nat) ∉ secD)
    (Hfmt : ∀ n, n < 100 → idNumOfCode (fmtId code n) = n)
    (s : SlotState) (t : JcState) (n : Nat) (hn : n ∈ List.range 100)
    (hR : SlotRel s t) :
    SlotRel (slotStep code used secD limit s n) (jcStep code existing sections limit t n) := by
  obtain ⟨hav, hcnt, hcov⟩ := hR
  have hn100 : n < 100 := List.mem_range.1 hn
  have hfmtn : idNumOfCode (fmtId code n) = n := Hfmt n hn100
  by_cases hu : n ∈ used
  · have hu2 : n ∈ existing ∨ n ∈ sections := (Hused n).1 hu
    have h1 : slotStep code used secD limit s n = s := by simp [slotStep, hu]
    have h2 : jcStep code existing sections limit t n = t := by simp [jcStep, hu2]
    rw [h1, h2]
    exact ⟨hav, hcnt, hcov⟩
  · have hu2 : ¬ (n ∈ existing ∨ n ∈ sections) := fun h => hu ((Hused n).2 h)
    by_cases hd0 : n / 10 * 10 = 0
    · by_cases hc : s.countInitial < limit
      · have h1 : slotStep code used secD limit s n
            = { s with available := s.available ++ [fmtId code n],
                       countInitial := s.countInitial + 1 } := by
          simp only [slotStep, if_neg hu]
          rw [if_pos ⟨hd0, hc⟩]
        have hc2 : t.countBeforeSections < limit := by rw [hcnt]; exact hc
        have h2 : jcStep code existing sections limit t n
            = { available := t.available ++ [fmtId code n],
                countBeforeSections := t.countBeforeSections + 1 } := by
          simp only [jcStep, if_neg hu2]
          rw [if_pos ⟨hd0, hc2⟩]
        rw [h1, h2]
        refine ⟨by rw [hav], by rw [hcnt], ?_⟩
        intro d hd
        rw [List.any_append]
        have hone : ([fmtId code n].any (fun a => idNumOfCode a / 10 * 10 == d)) = false := by
          simp [hfmtn, hd0]
          omega
        rw [hone, Bool.or_false]
        exact hcov d hd
      · have hns : n / 10 * 10 ∉ secD := by rw [hd0]; exact H0D
        have hns2 : n / 10 * 10 ∉ sections := by rw [hd0]; exact H0
        have h1 : slotStep code used secD limit s n = s := by
          simp only [slotStep, if_neg hu]
          rw [if_neg (fun h => hc h.2), if_neg (fun h => hns h.1)]
        have hc2 : ¬ t.countBeforeSections < limit := by rw [hcnt]; exact hc
        have h2 : jcStep code existing sections limit t n = t := by
          simp only [jcStep, if_neg hu2]
          rw [if_neg (fun h => hc2 h.2), if_neg hns2]
        rw [h1, h2]
        exact ⟨hav, hcnt, hcov⟩
    · have hb1s : ¬ (n / 10 * 10 = 0 ∧ s.countInitial < limit) := fun h => hd0 h.1
      have hb1t : ¬ (n / 10 * 10 = 0 ∧ t.countBeforeSections < limit) := fun h => hd0 h.1
      by_cases hs : n / 10 * 10 ∈ secD
      · have hs2 : n / 10 * 10 ∈ sections := (Hsec _).1 hs
        by_cases hcv : n / 10 * 10 ∈ s.decadesCovered
        · have h1 : slotStep code used secD limit s n = s := by
            simp only [slotStep, if_neg hu]
            rw [if_neg hb1s, if_neg (fun h => h.2 hcv)]
          have hany : (t.available.any (fun a => idNumOfCode a / 10 * 10 == n / 10 * 10))
              = true := (hcov _ hd0).1 hcv
          have h2 : jcStep code existing sections limit t n = t := by
            simp only [jcStep, if_neg hu2]
            rw [if_neg hb1t, if_pos hs2, if_pos hany]
          rw [h1, h2]
          exact ⟨hav, hcnt, hcov⟩
        · have h1 : slotStep code used secD limit s n
              = { s with available := s.available ++ [fmtId code n],
                         decadesCovered := s.decadesCovered ++ [n / 10 * 10] } := by
            simp only [slotStep, if_neg hu]
            rw [if_neg hb1s, if_pos ⟨hs, hcv⟩]
          have hany : (t.available.any (fun a => idNumOfCode a / 10 * 10 == n / 10 * 10))
              = false := by
            cases h : t.available.any (fun a => idNumOfCode a / 10 * 10 == n / 10 * 10) with
            | false => rfl
            | true => exact absurd ((hcov _ hd0).2 h) hcv
          have h2 : jcStep code existing sections limit t n
              = { t with available := t.available ++ [fmtId code n] } := by
            simp only [jcStep, if_neg hu2]
            rw [if_neg hb1t, if_pos hs2, if_neg (by rw [hany]; exact Bool.false_ne_true)]
          rw [h1, h2]
          refine ⟨by rw [hav], hcnt, ?_⟩
          intro d hd
          show d ∈ s.decadesCovered ++ [n / 10 * 10] ↔ _
          rw [List.any_append]
          have hsingle : ([fmtId code n].any (fun a => idNumOfCode a / 10 * 10 == d))
              = (n / 10 * 10 == d) := by
            simp [hfmtn]
          rw [hsingle, List.mem_append, List.mem_singleton]
          by_cases hdd : d = n / 10 * 10
          · subst hdd
            simp
          · have hbeq : ((n / 10 * 10 : Nat) == d) = false := by
              rw [beq_eq_false_iff_ne]
              exact fun h => hdd h.symm
            rw [hbeq, Bool.or_false, or_iff_left hdd]
            exact hcov d hd
      · have hs2 : n / 10 * 10 ∉ sections := fun h => hs ((Hsec _).2 h)
        have h1 : slotStep code used secD limit s n = s := by
          simp only [slotStep, if_neg hu]
          rw [if_neg hb1s, if_neg (fun h => hs h.1)]
        have h2 : jcStep code existing sections limit t n = t := by
          simp only [jcStep, if_neg hu2]
          rw [if_neg hb1t, if_neg hs2]
        rw [h1, h2]
        exact ⟨hav, hcnt, hcov⟩

theorem find?_congr {α} (p q : α → Bool) :
    ∀ l : List α, (∀ x ∈ l, p x = q x) → l.find? p = l.find? q := by
  intro l
  induction l with
  | nil => intro _; rfl
  | cons a rest ih =>
    intro h
    have ha := h a (List.mem_cons_self a rest)
    cases hpa : p a with
    | true =>
      rw [List.find?_cons_of_pos _ hpa, List.find?_cons_of_pos _ (ha ▸ hpa)]
    | false =>
      rw [List.find?_cons_of_neg _ (by simp [hpa]), List.find?_cons_of_neg _ (by
        rw [← ha]
        simp [hpa])]
      exact ih (fun x hx => h x (List.mem_cons_of_mem a hx))

/-- Abbreviation for the embedding of a typed ID list into the legacy dict. -/
def embId (i : JDId) : String × IdData := (i.code, { name := i.name, isSection := i.isSection })

theorem existingNums_emb (c : JDCategory) :
    existingNums (c.ids.map embId)
      = (c.ids.filter (fun i => ! i.isSection)).map JDId.idNumber := by
  unfold existingNums
  rw [List.filter_map, List.map_map]
  rfl

theorem sectionNums_emb (c : JDCategory) :
    sectionNums (c.ids.map embId)
      = (c.ids.filter (fun i => i.isSection)).map JDId.idNumber := by
  unfold sectionNums
  rw [List.filter_map, List.map_map]
  rfl

theorem usedSlots_split (c : JDCategory) (n : Nat) :
    n ∈ usedSlots c
      ↔ n ∈ (c.ids.filter (fun i => ! i.isSection)).map JDId.idNumber
        ∨ n ∈ (c.ids.filter (fun i => i.isSection)).map JDId.idNumber := by
  simp only [usedSlots, List.mem_map, List.mem_filter]
  constructor
  · rintro ⟨i, hi, rfl⟩
    cases hsec : i.isSection with
    | true => exact Or.inr ⟨i, ⟨hi, hsec⟩, rfl⟩
    | false => exact Or.inl ⟨i, ⟨hi, by rw [hsec]; rfl⟩, rfl⟩
  · rintro (⟨i, ⟨hi, _⟩, rfl⟩ | ⟨i, ⟨hi, _⟩, rfl⟩) <;> exact ⟨i, hi, rfl⟩

/-- Claim C5 (amended): the legacy dict-based and the typed tree-based slot
operations agree on `get_next_id`, and agree on `get_available_ids` whenever
every section-flagged ID of the category sits at a non-zero decade boundary
(its number is 10, 20, ..., 90) and the category code contains no dot.
(Without that proviso the two differ; see the counterexample.) -/
theorem C5_legacy_typed_equivalence (c : JDCategory) (idx : JDIndexD) (cd : CatData)
    (hfind : findCatData idx c.code = some cd)
    (hids : cd.ids = c.ids.map embId) :
    getNextId c.code idx = getNextAvailableId c
    ∧ (∀ limit, c.code.data.contains '.' = false →
        (∀ i ∈ c.ids, i.isSection = true →
          i.idNumber % 10 = 0 ∧ i.idNumber ≠ 0 ∧ i.idNumber < 100) →
        getAvailableIds c.code idx limit = getAvailableIdSlots c limit) := by
  have hex : existingNums cd.ids = (c.ids.filter (fun i => ! i.isSection)).map JDId.idNumber := by
    rw [hids]; exact existingNums_emb c
  have hsecn : sectionNums cd.ids = (c.ids.filter (fun i => i.isSection)).map JDId.idNumber := by
    rw [hids]; exact sectionNums_emb c
  have Hused : ∀ n, n ∈ usedSlots c ↔ n ∈ existingNums cd.ids ∨ n ∈ sectionNums cd.ids := by
    intro n
    rw [hex, hsecn]
    exact usedSlots_split c n
  constructor
  · unfold getNextId
    rw [hfind]
    dsimp only
    unfold getNextAvailableId
    congr 1
    apply find?_congr
    intro x _
    have h := Hused x
    by_cases he : x ∈ existingNums cd.ids <;> by_cases hs : x ∈ sectionNums cd.ids <;>
      simp [h, he, hs]
  · intro limit hdot hsecnum
    have Hsec : ∀ d, d ∈ sectionDecades c ↔ d ∈ sectionNums cd.ids := by
      intro d
      rw [hsecn]
      unfold sectionDecades sectionIds
      have hmapeq : (c.ids.filter (fun i => i.isSection)).map JDId.decade
          = (c.ids.filter (fun i => i.isSection)).map JDId.idNumber := by
        apply List.map_congr_left
        intro i hi
        have hsec := (List.mem_filter.1 hi).2
        have hnum := hsecnum i (List.mem_filter.1 hi).1 (by simpa using hsec)
        unfold JDId.decade
        omega
      rw [hmapeq]
    have H0 : (0 : Nat) ∉ sectionNums cd.ids := by
      rw [hsecn]
      rintro hmem
      rw [List.mem_map] at hmem
      obtain ⟨i, hi, hnum⟩ := hmem
      have h := hsecnum i (List.mem_filter.1 hi).1 (by simpa using (List.mem_filter.1 hi).2)
      exact h.2.1 hnum
    have H0D : (0 : Nat) ∉ sectionDecades c := fun h => H0 ((Hsec 0).1 h)
    have Hfmt : ∀ n, n < 100 → idNumOfCode (fmtId c.code n) = n :=
      fun n hn => idNumOfCode_fmtId c.code hdot n hn
    unfold getAvailableIds
    rw [hfind]
    dsimp only
    unfold getAvailableIdSlots
    congr 1
    have hsim := foldl_rel SlotRel
      (slotStep c.code (usedSlots c) (sectionDecades c) limit)
      (jcStep c.code (existingNums cd.ids) (sectionNums cd.ids) limit)
      (List.range 100)
      { available := [], countInitial := 0, decadesCovered := [] }
      { available := [], countBeforeSections := 0 }
      ⟨rfl, rfl, by intro d _; simp⟩
      (fun s t n hn hR =>
        slots_step_equiv c.code (usedSlots c) (existingNums cd.ids) (sectionNums cd.ids)
          (sectionDecades c) limit Hused Hsec H0 H0D Hfmt s t n hn hR)
    exact hsim.1

/-- The legacy index holding exactly the category `catC1` (section marker at
`11.15`). -/
def idxC5 : JDIndexD :=
  { areas := [("10-19",
      { name := "10-19 Area",
        categories := [("11",
          { name := "11 Test",
            ids := [("11.15", { name := "11.15 ■ Archive", isSection := true })] })] })] }

set_option maxRecDepth 4000 in
/-- Counterexample to claim C5 as stated: on the same category state (one
section-flagged ID at `11.15`), the legacy `get_available_ids` offers three
slots while the typed `get_available_id_slots` also offers `11.10` — the
legacy code tests `decade in sections` against section ID numbers, the typed
code against section ID decades. -/
theorem C5_counterexample :
    findCatData idxC5 catC1.code = some { name := "11 Test", ids := catC1.ids.map embId }
    ∧ getAvailableIds catC1.code idxC5 3 = ["11.00", "11.01", "11.02"]
    ∧ getAvailableIdSlots catC1 3 = ["11.00", "11.01", "11.02", "11.10"]
    ∧ getAvailableIds catC1.code idxC5 3 ≠ getAvailableIdSlots catC1 3 := by
  refine ⟨by decide, by decide, by decide, by decide⟩

/-- A category whose section marker sits at the decade boundary `12.10`. -/
def catC5w : JDCategory :=
  { code := "12", name := "12 W",
    ids := [{ code := "12.10", name := "12.10 ■ Sec", isSection := true },
            { code := "12.01", name := "12.01 A", isSection := false }] }

/-- The corresponding legacy category data. -/
def cdC5w : CatData :=
  { name := "12 W",
    ids := [("12.10", { name := "12.10 ■ Sec", isSection := true }),
            ("12.01", { name := "12.01 A", isSection := false })] }

/-- The corresponding legacy index. -/
def idxC5w : JDIndexD :=
  { areas := [("10-19", { name := "10-19 Area", categories := [("12", cdC5w)] })] }

set_option maxRecDepth 4000 in
/-- Witness for the amended C5 at a concrete category whose only section
marker is at a non-zero decade boundary. -/
theorem C5_legacy_typed_equivalence_witness :
    getNextId "12" idxC5w = getNextAvailableId catC5w
    ∧ getAvailableIds "12" idxC5w 3 = getAvailableIdSlots catC5w 3 := by
  have h := C5_legacy_typed_equivalence catC5w idxC5w cdC5w (by decide) (by decide)
  exact ⟨h.1, h.2 3 (by decide) (by decide)⟩

/-! ## The index tree and the search engine (`models.py`) -/

/-- `models.JDArea`: `categories` lists the values of the `_categories` dict
in insertion order. -/
structure JDArea where
  code : String
  name : String
  categories : List JDCategory
deriving DecidableEq

/-- `models.JDex`: `areas` lists the values of the `_areas` dict in insertion
order. -/
structure JDex where
  areas : List JDArea
deriving DecidableEq

/-- Python dict assignment `m[k] = v`: overwrite in place when the key is
present (the entry keeps its position), append otherwise. -/
def dictInsert {α : Type} (m : List (String × α)) (k : String) (v : α) : List (String × α) :=
  if m.any (fun p => p.1 == k) then m.map (fun p => if p.1 == k then (k, v) else p)
  else m ++ [(k, v)]

/-- A Python dict built by successive insertions (dict comprehension). -/
def pyDict {α : Type} (l : List (String × α)) : List (String × α) :=
  l.foldl (fun m p => dictInsert m p.1 p.2) []

theorem pyDict_go {α : Type} :
    ∀ (l acc : List (String × α)), (((acc ++ l).map Prod.fst).Nodup) →
    l.foldl (fun m p => dictInsert m p.1 p.2) acc = acc ++ l := by
  intro l
  induction l with
  | nil => intro acc _; simp
  | cons p rest ih =>
    intro acc hnd
    have hk : ∀ q ∈ acc, (q.1 == p.1) = false := by
      intro q hq
      rw [List.map_append] at hnd
      have hdisj := (List.nodup_append.1 hnd).2.2
      have hqmem : q.1 ∈ acc.map Prod.fst := List.mem_map_of_mem Prod.fst hq
      have hpmem : p.1 ∈ (p :: rest).map Prod.fst := by simp
      rw [beq_eq_false_iff_ne]
      intro hqe
      exact hdisj hqmem (hqe ▸ hpmem)
    have hins : dictInsert acc p.1 p.2 = acc ++ [p] := by
      unfold dictInsert
      rw [if_neg (by
        rw [List.any_eq_true]
        rintro ⟨q, hq, hqe⟩
        rw [hk q hq] at hqe
        exact Bool.noConfusion hqe)]
    rw [List.foldl_cons]
    show List.foldl (fun m q => dictInsert m q.1 q.2) (dictInsert acc p.1 p.2) rest = _
    rw [hins, ih (acc ++ [p]) (by simpa using hnd)]
    simp

theorem pyDict_eq_self {α : Type} (l : List (String × α)) (h : (l.map Prod.fst).Nodup) :
    pyDict l = l := by
  unfold pyDict
  rw [pyDict_go l [] (by simpa using h)]
  simp

/-- Iteration over a dict in sorted key order (`sorted(self._xs.keys())`
followed by lookups); with distinct codes this is sorting the values by
their code. -/
def sortByCode {α : Type} (key : α → String) (l : List α) : List α :=
  List.insertionSort (fun a b => strLeB (key a) (key b) = true) l

/-- `JDex.__iter__`. -/
def JDex.areasSorted (idx : JDex) : List JDArea := sortByCode JDArea.code idx.areas

/-- `JDArea.__iter__`. -/
def JDArea.catsSorted (a : JDArea) : List JDCategory := sortByCode JDCategory.code a.categories

/-- `JDCategory.__iter__`. -/
def JDCategory.idsSorted (c : JDCategory) : List JDId := sortByCode JDId.code c.ids

/-- `JDex.categories`, the cached flat dict
`{cat.code: cat for cat in chain.from_iterable(self)}`, as its value list. -/
def JDex.categoriesFlat (idx : JDex) : List JDCategory :=
  (pyDict ((idx.areasSorted.flatMap JDArea.catsSorted).map (fun c => (c.code, c)))).map Prod.snd

/-- `JDex.ids`, the cached flat dict over all categories, as its value list. -/
def JDex.idsFlat (idx : JDex) : List JDId :=
  (pyDict ((idx.categoriesFlat.flatMap JDCategory.idsSorted).map (fun i => (i.code, i)))).map
    Prod.snd

/-- Python `str.lower`, on its ASCII behavior. -/
def lowerStr (s : String) : String := String.mk (s.data.map Char.toLower)

/-- Python `\s` and `str.split()` whitespace (ASCII part). -/
def isPySpace (c : Char) : Bool :=
  c = ' ' ∨ c = '\t' ∨ c = '\n' ∨ c = '\r' ∨ c = '\x0b' ∨ c = '\x0c'

/-- One step of splitting a string on whitespace runs. -/
def wordsAux (c : Char) (acc : List (List Char)) : List (List Char) :=
  if isPySpace c then [] :: acc
  else
    match acc with
    | [] => [[c]]
    | w :: ws => (c :: w) :: ws

/-- Python `str.split()` with no arguments: whitespace runs separate words,
no empty words are produced. -/
def pySplit (s : String) : List String :=
  ((s.data.foldr wordsAux []).filter (fun w => ! w.isEmpty)).map String.mk

/-- Python substring containment `needle in hay`. -/
def isInfixB (needle hay : List Char) : Bool :=
  hay.tails.any (fun t => needle.isPrefixOf t)

/-- `JDex._matches_all_words`. -/
def matchesAllWords (name : String) (words : List String) : Bool :=
  words.all (fun w => isInfixB w.data (lowerStr name).data)

/-- `JDex._score_match`. -/
def scoreMatch (name query : String) : Int :=
  if isInfixB (lowerStr query).data (lowerStr name).data then 100 - (name.length : Int)
  else - (name.length : Int)

/-- A search result (`JDArea | JDCategory | JDId`). -/
inductive JDItem where
  | area (a : JDArea)
  | cat (c : JDCategory)
  | id (i : JDId)
deriving DecidableEq

def JDItem.name : JDItem → String
  | .area a => a.name
  | .cat c => c.name
  | .id i => i.name

def JDItem.code : JDItem → String
  | .area a => a.code
  | .cat c => c.code
  | .id i => i.code

def JDItem.isSectionId : JDItem → Bool
  | .id i => i.isSection
  | _ => false

/-- The `(score, code, item)` triples `JDex.search` accumulates, in
accumulation order. -/
def searchEntries (idx : JDex) (query : String) (level : Option String)
    (includeSections : Bool) : List (Int × String × JDItem) :=
  (if level = none ∨ level = some "area" then
    (idx.areasSorted.filter (fun a => matchesAllWords a.name (pySplit (lowerStr query)))).map
      (fun a => (scoreMatch a.name query, a.code, JDItem.area a))
  else [])
  ++ (if level = none ∨ level = some "category" then
    (idx.categoriesFlat.filter (fun c => matchesAllWords c.name (pySplit (lowerStr query)))).map
      (fun c => (scoreMatch c.name query, c.code, JDItem.cat c))
  else [])
  ++ (if level = none ∨ level = some "id" then
    (idx.idsFlat.filter (fun i => (! (i.isSection && ! includeSections))
        && matchesAllWords i.name (pySplit (lowerStr query)))).map
      (fun i => (scoreMatch i.name query, i.code, JDItem.id i))
  else [])

/-- The comparison behind `results.sort(key=lambda x: (-x[0], x[1]))`. -/
def entryLeB (x y : Int × String × JDItem) : Bool :=
  if - x.1 < - y.1 then true
  else if - y.1 < - x.1 then false
  else strLeB x.2.1 y.2.1

/-- `JDex.search`: collect, sort by `(-score, code)`, return the items. -/
def search (idx : JDex) (query : String) (level : Option String)
    (includeSections : Bool) : List JDItem :=
  (List.insertionSort (fun x y => entryLeB x y = true)
    (searchEntries idx query level includeSections)).map (fun e => e.2.2)

theorem entryLeB_total (x y : Int × String × JDItem) :
    entryLeB x y = true ∨ entryLeB y x = true := by
  unfold entryLeB
  by_cases h1 : - x.1 < - y.1
  · left; rw [if_pos h1]
  · by_cases h2 : - y.1 < - x.1
    · right
      rw [if_pos h2]
    · rw [if_neg h1, if_neg h2, if_neg h2, if_neg h1]
      exact strLeB_total x.2.1 y.2.1

theorem entryLeB_trans {x y z : Int × String × JDItem} (h1 : entryLeB x y = true)
    (h2 : entryLeB y z = true) : entryLeB x z = true := by
  unfold entryLeB at h1 h2 ⊢
  by_cases hxz : - x.1 < - z.1
  · rw [if_pos hxz]
  · rw [if_neg hxz]
    by_cases hxy : - x.1 < - y.1
    · exfalso
      by_cases hyz : - y.1 < - z.1
      · omega
      · by_cases hzy : - z.1 < - y.1
        · rw [if_neg hyz, if_pos hzy] at h2
          exact Bool.noConfusion h2
        · omega
    · by_cases hyx : - y.1 < - x.1
      · exfalso
        rw [if_neg hxy, if_pos hyx] at h1
        exact Bool.noConfusion h1
      · rw [if_neg hxy, if_neg hyx] at h1
        by_cases hyz : - y.1 < - z.1
        · omega
        · by_cases hzy : - z.1 < - y.1
          · exfalso
            rw [if_neg hyz, if_pos hzy] at h2
            exact Bool.noConfusion h2
          · rw [if_neg hyz, if_neg hzy] at h2
            rw [if_neg (by omega : ¬ - z.1 < - x.1)]
            exact strLeB_trans h1 h2

instance : IsTotal (Int × String × JDItem) (fun x y => entryLeB x y = true) :=
  ⟨entryLeB_total⟩

instance : IsTrans (Int × String × JDItem) (fun x y => entryLeB x y = true) :=
  ⟨fun _ _ _ => entryLeB_trans⟩

theorem mem_sortByCode {α : Type} (key : α → String) (l : List α) (x : α) :
    x ∈ sortByCode key l ↔ x ∈ l := List.mem_insertionSort _

theorem catsIter_perm (idx : JDex) :
    List.Perm (idx.areasSorted.flatMap JDArea.catsSorted)
      (idx.areas.flatMap (fun a => a.categories)) := by
  have h1 : List.Perm (idx.areasSorted.flatMap JDArea.catsSorted)
      (idx.areasSorted.flatMap (fun a => a.categories)) :=
    List.Perm.flatMap_left _ (fun a _ => List.perm_insertionSort _ _)
  have h2 : List.Perm (idx.areasSorted.flatMap (fun a => a.categories))
      (idx.areas.flatMap (fun a => a.categories)) :=
    List.Perm.flatMap_right _ (List.perm_insertionSort _ _)
  exact h1.trans h2

/-- Distinct category codes across all areas. -/
abbrev NodupCatCodes (idx : JDex) : Prop :=
  ((idx.areas.flatMap (fun a => a.categories)).map JDCategory.code).Nodup

/-- Distinct ID codes across all categories of all areas. -/
abbrev NodupIdCodes (idx : JDex) : Prop :=
  (((idx.areas.flatMap (fun a => a.categories)).flatMap (fun c => c.ids)).map JDId.code).Nodup

theorem categoriesFlat_eq (idx : JDex) (hndC : NodupCatCodes idx) :
    idx.categoriesFlat = idx.areasSorted.flatMap JDArea.catsSorted := by
  unfold JDex.categoriesFlat
  have hkeq : (((idx.areasSorted.flatMap JDArea.catsSorted).map
        (fun c => (c.code, c))).map Prod.fst)
      = (idx.areasSorted.flatMap JDArea.catsSorted).map JDCategory.code := by
    simp [List.map_map]
  have hkeys : (((idx.areasSorted.flatMap JDArea.catsSorted).map
      (fun c => (c.code, c))).map Prod.fst).Nodup := by
    rw [hkeq]
    exact (((catsIter_perm idx).map JDCategory.code).nodup_iff).2 hndC
  rw [pyDict_eq_self _ hkeys]
  have hsnd : ∀ L : List JDCategory, (L.map (fun c => (c.code, c))).map Prod.snd = L := by
    intro L
    induction L with
    | nil => rfl
    | cons a t ih => simp [ih]
  exact hsnd _

theorem mem_categoriesFlat (idx : JDex) (hndC : NodupCatCodes idx) (c : JDCategory) :
    c ∈ idx.categoriesFlat ↔ ∃ a ∈ idx.areas, c ∈ a.categories := by
  rw [categoriesFlat_eq idx hndC, (catsIter_perm idx).mem_iff]
  simp [List.mem_flatMap]

theorem idsIter_perm (idx : JDex) (hndC : NodupCatCodes idx) :
    List.Perm (idx.categoriesFlat.flatMap JDCategory.idsSorted)
      ((idx.areas.flatMap (fun a => a.categories)).flatMap (fun c => c.ids)) := by
  rw [categoriesFlat_eq idx hndC]
  have h1 : List.Perm ((idx.areasSorted.flatMap JDArea.catsSorted).flatMap JDCategory.idsSorted)
      ((idx.areasSorted.flatMap JDArea.catsSorted).flatMap (fun c => c.ids)) :=
    List.Perm.flatMap_left _ (fun c _ => List.perm_insertionSort _ _)
  have h2 : List.Perm ((idx.areasSorted.flatMap JDArea.catsSorted).flatMap (fun c => c.ids))
      ((idx.areas.flatMap (fun a => a.categories)).flatMap (fun c => c.ids)) :=
    List.Perm.flatMap_right _ (catsIter_perm idx)
  exact h1.trans h2

theorem idsFlat_eq (idx : JDex) (hndC : NodupCatCodes idx) (hndI : NodupIdCodes idx) :
    idx.idsFlat = idx.categoriesFlat.flatMap JDCategory.idsSorted := by
  unfold JDex.idsFlat
  have hkeq : (((idx.categoriesFlat.flatMap JDCategory.idsSorted).map
        (fun i => (i.code, i))).map Prod.fst)
      = (idx.categoriesFlat.flatMap JDCategory.idsSorted).map JDId.code := by
    simp [List.map_map]
  have hkeys : (((idx.categoriesFlat.flatMap JDCategory.idsSorted).map
      (fun i => (i.code, i))).map Prod.fst).Nodup := by
    rw [hkeq]
    exact (((idsIter_perm idx hndC).map JDId.code).nodup_iff).2 hndI
  rw [pyDict_eq_self _ hkeys]
  have hsnd : ∀ L : List JDId, (L.map (fun i => (i.code, i))).map Prod.snd = L := by
    intro L
    induction L with
    | nil => rfl
    | cons a t ih => simp [ih]
  exact hsnd _

theorem mem_idsFlat (idx : JDex) (hndC : NodupCatCodes idx) (hndI : NodupIdCodes idx)
    (i : JDId) :
    i ∈ idx.idsFlat ↔ ∃ a ∈ idx.areas, ∃ c ∈ a.categories, i ∈ c.ids := by
  rw [idsFlat_eq idx hndC hndI, (idsIter_perm idx hndC).mem_iff]
  simp [List.mem_flatMap]
  tauto

theorem mem_ite_nil {α : Type} (P : Prop) [Decidable P] (l : List α) (x : α) :
    (x ∈ (if P then l else [])) ↔ P ∧ x ∈ l := by
  by_cases h : P <;> simp [h]

theorem mem_areasSorted (idx : JDex) (a : JDArea) :
    a ∈ idx.areasSorted ↔ a ∈ idx.areas := List.mem_insertionSort _

theorem searchEntries_prop (idx : JDex) (q : String) (lvl : Option String) (inc : Bool) :
    ∀ e ∈ searchEntries idx q lvl inc,
      e.1 = scoreMatch e.2.2.name q ∧ e.2.1 = e.2.2.code := by
  intro e he
  unfold searchEntries at he
  rcases List.mem_append.1 he with he | he
  · rcases List.mem_append.1 he with he | he
    · obtain ⟨_, hm⟩ := (mem_ite_nil _ _ _).1 he
      obtain ⟨a, _, heq⟩ := List.mem_map.1 hm
      subst heq
      exact ⟨rfl, rfl⟩
    · obtain ⟨_, hm⟩ := (mem_ite_nil _ _ _).1 he
      obtain ⟨c, _, heq⟩ := List.mem_map.1 hm
      subst heq
      exact ⟨rfl, rfl⟩
  · obtain ⟨_, hm⟩ := (mem_ite_nil _ _ _).1 he
    obtain ⟨i, _, heq⟩ := List.mem_map.1 hm
    subst heq
    exact ⟨rfl, rfl⟩

theorem search_mem (idx : JDex) (q : String) (lvl : Option String) (inc : Bool)
    (hndC : NodupCatCodes idx) (hndI : NodupIdCodes idx) (x : JDItem) :
    x ∈ search idx q lvl inc ↔
      ((lvl = none ∨ lvl = some "area") ∧ ∃ a ∈ idx.areas, x = JDItem.area a
          ∧ matchesAllWords a.name (pySplit (lowerStr q)) = true)
      ∨ ((lvl = none ∨ lvl = some "category") ∧ ∃ ar ∈ idx.areas, ∃ c ∈ ar.categories,
          x = JDItem.cat c ∧ matchesAllWords c.name (pySplit (lowerStr q)) = true)
      ∨ ((lvl = none ∨ lvl = some "id") ∧ ∃ ar ∈ idx.areas, ∃ c ∈ ar.categories, ∃ i ∈ c.ids,
          x = JDItem.id i ∧ (! (i.isSection && ! inc)) = true
          ∧ matchesAllWords i.name (pySplit (lowerStr q)) = true) := by
  unfold search
  rw [List.mem_map]
  constructor
  · rintro ⟨e, he, rfl⟩
    rw [List.mem_insertionSort] at he
    unfold searchEntries at he
    rcases List.mem_append.1 he with he | he
    · rcases List.mem_append.1 he with he | he
      · obtain ⟨hl, hm⟩ := (mem_ite_nil _ _ _).1 he
        obtain ⟨a, ham, heq⟩ := List.mem_map.1 hm
        obtain ⟨hmem, hmatch⟩ := List.mem_filter.1 ham
        rw [mem_areasSorted] at hmem
        subst heq
        exact Or.inl ⟨hl, a, hmem, rfl, hmatch⟩
      · obtain ⟨hl, hm⟩ := (mem_ite_nil _ _ _).1 he
        obtain ⟨c, hcm, heq⟩ := List.mem_map.1 hm
        obtain ⟨hmem, hmatch⟩ := List.mem_filter.1 hcm
        obtain ⟨ar, har, hc⟩ := (mem_categoriesFlat idx hndC c).1 hmem
        subst heq
        exact Or.inr (Or.inl ⟨hl, ar, har, c, hc, rfl, hmatch⟩)
    · obtain ⟨hl, hm⟩ := (mem_ite_nil _ _ _).1 he
      obtain ⟨i, him, heq⟩ := List.mem_map.1 hm
      obtain ⟨hmem, hcond⟩ := List.mem_filter.1 him
      obtain ⟨ar, har, c, hc, hi⟩ := (mem_idsFlat idx hndC hndI i).1 hmem
      rw [Bool.and_eq_true] at hcond
      subst heq
      exact Or.inr (Or.inr ⟨hl, ar, har, c, hc, i, hi, rfl, hcond.1, hcond.2⟩)
  · rintro (⟨hl, a, ha, rfl, hm⟩ | ⟨hl, ar, har, c, hc, rfl, hm⟩
      | ⟨hl, ar, har, c, hc, i, hi, rfl, hsec, hm⟩)
    · refine ⟨(scoreMatch a.name q, a.code, JDItem.area a), ?_, rfl⟩
      rw [List.mem_insertionSort]
      unfold searchEntries
      refine List.mem_append.2 (Or.inl (List.mem_append.2 (Or.inl ?_)))
      rw [mem_ite_nil]
      exact ⟨hl, List.mem_map.2 ⟨a,
        List.mem_filter.2 ⟨(mem_areasSorted idx a).2 ha, hm⟩, rfl⟩⟩
    · refine ⟨(scoreMatch c.name q, c.code, JDItem.cat c), ?_, rfl⟩
      rw [List.mem_insertionSort]
      unfold searchEntries
      refine List.mem_append.2 (Or.inl (List.mem_append.2 (Or.inr ?_)))
      rw [mem_ite_nil]
      exact ⟨hl, List.mem_map.2 ⟨c,
        List.mem_filter.2 ⟨(mem_categoriesFlat idx hndC c).2 ⟨ar, har, hc⟩, hm⟩, rfl⟩⟩
    · refine ⟨(scoreMatch i.name q, i.code, JDItem.id i), ?_, rfl⟩
      rw [List.mem_insertionSort]
      unfold searchEntries
      refine List.mem_append.2 (Or.inr ?_)
      rw [mem_ite_nil]
      refine ⟨hl, List.mem_map.2 ⟨i, List.mem_filter.2
        ⟨(mem_idsFlat idx hndC hndI i).2 ⟨ar, har, c, hc, hi⟩, ?_⟩, rfl⟩⟩
      rw [Bool.and_eq_true]
      exact ⟨hsec, hm⟩

theorem search_sorted (idx : JDex) (q : String) (lvl : Option String) (inc : Bool) :
    List.Pairwise (fun x y : JDItem =>
      scoreMatch y.name q < scoreMatch x.name q
      ∨ (scoreMatch x.name q = scoreMatch y.name q ∧ strLeB x.code y.code = true))
      (search idx q lvl inc) := by
  unfold search
  rw [List.pairwise_map]
  have hs : List.Pairwise (fun x y => entryLeB x y = true)
      (List.insertionSort (fun x y => entryLeB x y = true)
        (searchEntries idx q lvl inc)) :=
    List.sorted_insertionSort _ _
  refine hs.imp_of_mem ?_
  intro e1 e2 h1 h2 hle
  rw [List.mem_insertionSort] at h1 h2
  obtain ⟨hs1, hc1⟩ := searchEntries_prop idx q lvl inc e1 h1
  obtain ⟨hs2, hc2⟩ := searchEntries_prop idx q lvl inc e2 h2
  unfold entryLeB at hle
  by_cases hlt : - e1.1 < - e2.1
  · left
    rw [← hs1, ← hs2]
    omega
  · rw [if_neg hlt] at hle
    by_cases hgt : - e2.1 < - e1.1
    · rw [if_pos hgt] at hle
      exact Bool.noConfusion hle
    · rw [if_neg hgt] at hle
      right
      rw [← hs1, ← hs2, ← hc1, ← hc2]
      exact ⟨by omega, hle⟩

theorem search_not_section (idx : JDex) (q : String) (lvl : Option String) (x : JDItem)
    (hx : x ∈ search idx q lvl false) : x.isSectionId = false := by
  unfold search at hx
  rw [List.mem_map] at hx
  obtain ⟨e, he, rfl⟩ := hx
  rw [List.mem_insertionSort] at he
  unfold searchEntries at he
  rcases List.mem_append.1 he with he | he
  · rcases List.mem_append.1 he with he | he
    · obtain ⟨_, hm⟩ := (mem_ite_nil _ _ _).1 he
      obtain ⟨a, _, heq⟩ := List.mem_map.1 hm
      subst heq
      rfl
    · obtain ⟨_, hm⟩ := (mem_ite_nil _ _ _).1 he
      obtain ⟨c, _, heq⟩ := List.mem_map.1 hm
      subst heq
      rfl
  · obtain ⟨_, hm⟩ := (mem_ite_nil _ _ _).1 he
    obtain ⟨i, him, heq⟩ := List.mem_map.1 hm
    obtain ⟨_, hcond⟩ := List.mem_filter.1 him
    rw [Bool.and_eq_true] at hcond
    subst heq
    show i.isSection = false
    have := hcond.1
    cases hsec : i.isSection with
    | false => rfl
    | true =>
      rw [hsec] at this
      simp at this

/-! ## Claim C4: search semantics and ranking -/

/-- The scoring rule as the claim words it: `100 − len(name)` when the full
lowercased query is a contiguous substring of the lowercased name,
`−len(name)` otherwise. -/
def claimScore (query name : String) : Int :=
  if isInfixB (lowerStr query).data (lowerStr name).data then 100 - (name.length : Int)
  else - (name.length : Int)

/-- The ordering the claim words: descending score, ties by ascending code. -/
def claimOrdering (query : String) (x y : JDItem) : Prop :=
  claimScore query y.name < claimScore query x.name
  ∨ (claimScore query x.name = claimScore query y.name ∧ strLeB x.code y.code = true)

theorem claimScore_eq_scoreMatch (query name : String) :
    claimScore query name = scoreMatch name query := rfl

/-- Claim C4 (amended): under globally distinct category and ID codes — a
condition per-parent key uniqueness does not guarantee — `search` returns
exactly the entries of the selected tier — sections excluded — whose name
contains every lowercased query word as a substring, and the output is
ordered by descending claim score (`100 − len` on a contiguous full-query
hit, `−len` otherwise) with ties broken by ascending code. Without that
condition the flattened dict caches drop shadowed entries. -/
theorem C4_search_ranking (idx : JDex) (query : String) (level : Option String)
    (hndC : NodupCatCodes idx) (hndI : NodupIdCodes idx) :
    (∀ x, x ∈ search idx query level false ↔
      ((level = none ∨ level = some "area") ∧ ∃ a ∈ idx.areas, x = JDItem.area a
          ∧ matchesAllWords a.name (pySplit (lowerStr query)) = true)
      ∨ ((level = none ∨ level = some "category") ∧ ∃ ar ∈ idx.areas, ∃ c ∈ ar.categories,
          x = JDItem.cat c ∧ matchesAllWords c.name (pySplit (lowerStr query)) = true)
      ∨ ((level = none ∨ level = some "id") ∧ ∃ ar ∈ idx.areas, ∃ c ∈ ar.categories,
          ∃ i ∈ c.ids, x = JDItem.id i ∧ i.isSection = false
          ∧ matchesAllWords i.name (pySplit (lowerStr query)) = true))
    ∧ List.Sorted (claimOrdering query) (search idx query level false) := by
  constructor
  · intro x
    rw [search_mem idx query level false hndC hndI x]
    have hsec : ∀ i : JDId, (! (i.isSection && ! false)) = true ↔ i.isSection = false := by
      intro i
      cases h : i.isSection <;> simp [h]
    constructor
    · rintro (h | h | ⟨hl, ar, har, c, hc, i, hi, rfl, hcond, hm⟩)
      · exact Or.inl h
      · exact Or.inr (Or.inl h)
      · exact Or.inr (Or.inr ⟨hl, ar, har, c, hc, i, hi, rfl, (hsec i).1 hcond, hm⟩)
    · rintro (h | h | ⟨hl, ar, har, c, hc, i, hi, rfl, hcond, hm⟩)
      · exact Or.inl h
      · exact Or.inr (Or.inl h)
      · exact Or.inr (Or.inr ⟨hl, ar, har, c, hc, i, hi, rfl, (hsec i).2 hcond, hm⟩)
  · have h := search_sorted idx query level false
    refine h.imp ?_
    intro x y hxy
    rcases hxy with h | ⟨h1, h2⟩
    · exact Or.inl (by rw [claimScore_eq_scoreMatch, claimScore_eq_scoreMatch]; exact h)
    · exact Or.inr ⟨by rw [claimScore_eq_scoreMatch, claimScore_eq_scoreMatch]; exact h1, h2⟩

/-- A tiny concrete index for the witnesses. -/
def idxW : JDex :=
  { areas := [
      { code := "10-19", name := "10-19 Life admin",
        categories := [
          { code := "11", name := "11 Finance",
            ids := [{ code := "11.01", name := "11.01 Inbox", isSection := false },
                    { code := "11.10", name := "11.10 ■ Stuff", isSection := true }] }] },
      { code := "20-29", name := "20-29 Work", categories := [] }] }

/-- Witness for C4 at a concrete index and query. -/
theorem C4_search_ranking_witness :
    List.Sorted (claimOrdering "life") (search idxW "life" none false) :=
  (C4_search_ranking idxW "life" none (by decide) (by decide)).2

/-- Two areas, each with one category, both categories carrying the code
`"11"`: every per-parent dict has distinct keys, yet the flat
`{cat.code: cat}` cache can keep only one of them. -/
def idxC4 : JDex :=
  { areas := [
      { code := "10-19", name := "10-19 A",
        categories := [{ code := "11", name := "11 Alpha", ids := [] }] },
      { code := "20-29", name := "20-29 B",
        categories := [{ code := "11", name := "11 Beta", ids := [] }] }] }

/-- Counterexample to claim C4 as stated: with the category code `"11"`
duplicated across two areas (legal — every per-parent dict still has
distinct keys), the flat cache keeps only the last category, so the
shadowed `11 Alpha` matches the query `"alpha"` yet the search result is
empty, refuting the unconditional "returns exactly the entries ...". -/
theorem C4_counterexample :
    (∀ a ∈ idxC4.areas, (a.categories.map JDCategory.code).Nodup)
    ∧ (∃ ar ∈ idxC4.areas, ∃ c ∈ ar.categories,
        matchesAllWords c.name (pySplit (lowerStr "alpha")) = true)
    ∧ search idxC4 "alpha" (some "category") false = [] := by
  refine ⟨by decide, by decide, by decide⟩

/-! ## Claim C10: empty and all-whitespace queries -/

theorem isInfixB_nil (hay : List Char) : isInfixB [] hay = true := by
  cases hay with
  | nil => rfl
  | cons a t =>
    unfold isInfixB
    rw [List.tails]
    simp [List.isPrefixOf]

theorem scoreMatch_empty (name : String) : scoreMatch name "" = 100 - (name.length : Int) := by
  unfold scoreMatch
  rw [if_pos]
  show isInfixB (lowerStr "").data _ = true
  exact isInfixB_nil _

/-- The two areas of the C10 counterexample: `X` has no space in its name,
`a b` has one. -/
def areaA10 : JDArea := { code := "10-19", name := "X", categories := [] }

def areaB10 : JDArea := { code := "20-29", name := "a b", categories := [] }

def idxC10 : JDex := { areas := [areaA10, areaB10] }

/-- Counterexample to claim C10 as stated: for the all-whitespace query
`" "`, the claim predicts scores `100 − len` for both areas (99 for `X`,
97 for `a b`) and hence the order `[X, a b]`; the code scores `X` as `−1`
because the literal query `" "` is not a substring of `"x"`, and returns
`[a b, X]`. -/
theorem C10_counterexample :
    search idxC10 " " none false = [JDItem.area areaB10, JDItem.area areaA10]
    ∧ (100 : Int) - (areaA10.name.length : Int) > 100 - (areaB10.name.length : Int)
    ∧ search idxC10 " " none false ≠ [JDItem.area areaA10, JDItem.area areaB10] := by
  refine ⟨by decide, by decide, by decide⟩

/-- Claim C10 (amended): under globally distinct category and ID codes (the
flattened dict caches keep only the last entry per code), a query whose word
list is empty (empty or all-whitespace) matches every area, every category
and every non-section ID;
for the empty query each match scores `100 − len(name)`, so the result is
ordered by ascending name length with ties broken by ascending code. For a
non-empty all-whitespace query the same items are returned, but the
contiguous-substring bonus compares the literal whitespace text, so the
order can differ. -/
theorem C10_empty_query (idx : JDex) (hndC : NodupCatCodes idx) (hndI : NodupIdCodes idx) :
    (∀ q, pySplit (lowerStr q) = [] → ∀ x,
        x ∈ search idx q none false ↔
          ((∃ a ∈ idx.areas, x = JDItem.area a)
            ∨ (∃ ar ∈ idx.areas, ∃ c ∈ ar.categories, x = JDItem.cat c)
            ∨ (∃ ar ∈ idx.areas, ∃ c ∈ ar.categories, ∃ i ∈ c.ids,
                x = JDItem.id i ∧ i.isSection = false)))
    ∧ List.Sorted (fun x y : JDItem =>
        (100 : Int) - (y.name.length : Int) < 100 - (x.name.length : Int)
        ∨ ((100 : Int) - (x.name.length : Int) = 100 - (y.name.length : Int)
            ∧ strLeB x.code y.code = true))
      (search idx "" none false) := by
  constructor
  · intro q hq x
    rw [search_mem idx q none false hndC hndI x]
    have hsec : ∀ i : JDId, (! (i.isSection && ! false)) = true ↔ i.isSection = false := by
      intro i
      cases h : i.isSection <;> simp [h]
    have hmatch : ∀ name : String, matchesAllWords name (pySplit (lowerStr q)) = true := by
      intro name
      rw [hq]
      rfl
    constructor
    · rintro (⟨_, a, ha, hx, _⟩ | ⟨_, ar, har, c, hc, hx, _⟩
        | ⟨_, ar, har, c, hc, i, hi, hx, hcond, _⟩)
      · exact Or.inl ⟨a, ha, hx⟩
      · exact Or.inr (Or.inl ⟨ar, har, c, hc, hx⟩)
      · exact Or.inr (Or.inr ⟨ar, har, c, hc, i, hi, hx, (hsec i).1 hcond⟩)
    · rintro (⟨a, ha, hx⟩ | ⟨ar, har, c, hc, hx⟩ | ⟨ar, har, c, hc, i, hi, hx, hcond⟩)
      · exact Or.inl ⟨Or.inl rfl, a, ha, hx, hmatch a.name⟩
      · exact Or.inr (Or.inl ⟨Or.inl rfl, ar, har, c, hc, hx, hmatch c.name⟩)
      · exact Or.inr (Or.inr ⟨Or.inl rfl, ar, har, c, hc, i, hi, hx, (hsec i).2 hcond,
          hmatch i.name⟩)
  · have h := search_sorted idx "" none false
    refine h.imp ?_
    intro x y hxy
    rw [scoreMatch_empty, scoreMatch_empty] at hxy
    exact hxy

/-- Witness for the amended C10: on the concrete index, the whitespace query
returns the first area. -/
theorem C10_empty_query_witness :
    JDItem.area { code := "20-29", name := "20-29 Work", categories := [] }
      ∈ search idxW " " none false :=
  ((C10_empty_query idxW (by decide) (by decide)).1 " " (by decide) _).2
    (Or.inl ⟨_, by decide, rfl⟩)

/-! ## Filesystem model, code patterns, and the scanner (`core.py`) -/

/-- A filesystem entry: a directory (with a readability flag — listing an
unreadable directory raises `PermissionError`) or a plain file (iterating a
file raises `NotADirectoryError`). -/
inductive FSNode where
  | dir (name : String) (readable : Bool) (children : List FSNode)
  | file (name : String)

def FSNode.name : FSNode → String
  | .dir nm _ _ => nm
  | .file nm => nm

def FSNode.isDir : FSNode → Bool
  | .dir _ _ _ => true
  | .file _ => false

/-- `Path.iterdir` forced by `sorted(...)`: the children on success, a raised
error for an unreadable directory or a non-directory. -/
def listDir : FSNode → Except Unit (List FSNode)
  | .dir _ true cs => .ok cs
  | .dir _ false _ => .error ()
  | .file _ => .error ()

/-- `sorted(p.iterdir())`: paths under one parent compare by entry name. -/
def sortByName (l : List FSNode) : List FSNode :=
  List.insertionSort (fun a b => strLeB a.name b.name = true) l

/-- The `\s+(.*)$` part shared by the three code patterns, with Python `re`
semantics: at least one whitespace character, then a remainder that may
contain no newline except a single trailing one (excluded from the group). -/
def matchTail (l : List Char) : Option (List Char) :=
  let ws := l.takeWhile isPySpace
  let rest := l.dropWhile isPySpace
  if ws.isEmpty then none
  else
    let rest2 := if rest.getLast? = some '\n' then rest.dropLast else rest
    if rest2.any (fun c => c = '\n') then none else some rest2

/-- `AREA_PATTERN = ^(\d0-\d9)\s+(.*)$` (`\d` on its ASCII digits). -/
def matchArea (s : String) : Option (String × String) :=
  match s.data with
  | c0 :: c1 :: c2 :: c3 :: c4 :: rest =>
    if c0.isDigit && (c1 == '0') && (c2 == '-') && c3.isDigit && (c4 == '9') then
      (matchTail rest).map (fun g2 => (String.mk [c0, c1, c2, c3, c4], String.mk g2))
    else none
  | _ => none

/-- `CATEGORY_PATTERN = ^(\d{2})\s+(.*)$`. -/
def matchCategory (s : String) : Option (String × String) :=
  match s.data with
  | c0 :: c1 :: rest =>
    if c0.isDigit && c1.isDigit then
      (matchTail rest).map (fun g2 => (String.mk [c0, c1], String.mk g2))
    else none
  | _ => none

/-- `ID_PATTERN = ^(\d{2}\.\d{2})\s+(.*)$`. -/
def matchId (s : String) : Option (String × String) :=
  match s.data with
  | c0 :: c1 :: c2 :: c3 :: c4 :: rest =>
    if c0.isDigit && c1.isDigit && (c2 == '.') && c3.isDigit && c4.isDigit then
      (matchTail rest).map (fun g2 => (String.mk [c0, c1, c2, c3, c4], String.mk g2))
    else none
  | _ => none

/-- Python dict assignment keyed by a code projection (`add_id`,
`add_category`, `add_area`): overwrite in place, else append. -/
def dictInsertBy {α : Type} (key : α → String) (l : List α) (x : α) : List α :=
  if l.any (fun y => key y == key x) then l.map (fun y => if key y == key x then x else y)
  else l ++ [x]

/-- The ID loop of `scan_filesystem` over the (sorted) children of a
category directory. -/
def scanIds (entries : List FSNode) : List JDId :=
  entries.foldl (fun acc e =>
    if e.isDir then
      match matchId e.name with
      | some (code, _) =>
        dictInsertBy JDId.code acc
          { code := code, name := e.name, isSection := e.name.data.contains '■' }
      | none => acc
    else acc) []

/-- The category loop of `scan_filesystem`: listing a matched category
directory can raise, which propagates (no handler in the source). -/
def scanCatsAux (acc : List JDCategory) : List FSNode → Except Unit (List JDCategory)
  | [] => .ok acc
  | e :: rest =>
    if e.isDir then
      match matchCategory e.name with
      | some (code, _) =>
        match listDir e with
        | .error er => .error er
        | .ok sub =>
          scanCatsAux (dictInsertBy JDCategory.code acc
            { code := code, name := e.name, ids := scanIds (sortByName sub) }) rest
      | none => scanCatsAux acc rest
    else scanCatsAux acc rest

/-- The area loop of `scan_filesystem`. -/
def scanAreasAux (acc : List JDArea) : List FSNode → Except Unit (List JDArea)
  | [] => .ok acc
  | e :: rest =>
    if e.isDir then
      match matchArea e.name with
      | some (code, _) =>
        match listDir e with
        | .error er => .error er
        | .ok sub =>
          match scanCatsAux [] (sortByName sub) with
          | .error er => .error er
          | .ok cats =>
            scanAreasAux (dictInsertBy JDArea.code acc
              { code := code, name := e.name, categories := cats }) rest
      | none => scanAreasAux acc rest
    else scanAreasAux acc rest

/-- `core.scan_filesystem`: a non-existent root yields the empty index; a
raised listing error (root, matched area, or matched category directory)
propagates out of the function. -/
def scanFilesystem (root : Option FSNode) : Except Unit JDex :=
  match root with
  | none => .ok { areas := [] }
  | some r =>
    match listDir r with
    | .error er => .error er
    | .ok entries =>
      match scanAreasAux [] (sortByName entries) with
      | .error er => .error er
      | .ok as2 => .ok { areas := as2 }

/-! ## Claim C2: listing failures during the scan -/

/-- A matched category directory whose listing raises. -/
def catLevelBad : FSNode → Bool
  | .dir nm r _ => (matchCategory nm).isSome && ! r
  | .file _ => false

/-- A matched area directory whose listing raises, or that contains a bad
category directory. -/
def areaLevelBad : FSNode → Bool
  | .dir nm r cs => (matchArea nm).isSome && (! r || cs.any catLevelBad)
  | .file _ => false

/-- The scan walk reaches a directory whose listing raises. -/
def scanBad : Option FSNode → Bool
  | none => false
  | some (.file _) => true
  | some (.dir _ r cs) => ! r || cs.any areaLevelBad

theorem any_sortByName (p : FSNode → Bool) (l : List FSNode) :
    (sortByName l).any p = l.any p := by
  cases h1 : l.any p with
  | true =>
    obtain ⟨x, hx, hpx⟩ := List.any_eq_true.1 h1
    exact List.any_eq_true.2 ⟨x, (List.mem_insertionSort _).2 hx, hpx⟩
  | false =>
    cases h2 : (sortByName l).any p with
    | false => rfl
    | true =>
      obtain ⟨x, hx, hpx⟩ := List.any_eq_true.1 h2
      have := List.any_eq_true.2 ⟨x, (List.mem_insertionSort _).1 hx, hpx⟩
      rw [h1] at this
      exact this.symm

theorem scanCatsAux_error : ∀ (entries : List FSNode) (acc : List JDCategory),
    (scanCatsAux acc entries = .error ()) ↔ entries.any catLevelBad = true := by
  intro entries
  induction entries with
  | nil =>
    intro acc
    constructor
    · intro h
      exact Except.noConfusion h
    · intro h
      simp at h
  | cons e rest ih =>
    intro acc
    rw [List.any_cons]
    cases e with
    | file nm =>
      rw [show scanCatsAux acc (FSNode.file nm :: rest) = scanCatsAux acc rest from rfl]
      rw [ih acc]
      simp [catLevelBad]
    | dir nm r cs =>
      cases hm : matchCategory nm with
      | none =>
        simp only [scanCatsAux, FSNode.isDir, FSNode.name, hm, if_true]
        rw [ih acc]
        simp [catLevelBad, hm]
      | some g =>
        obtain ⟨gc, g2⟩ := g
        cases r with
        | true =>
          simp only [scanCatsAux, FSNode.isDir, FSNode.name, hm, listDir, if_true]
          rw [ih]
          simp [catLevelBad, hm]
        | false =>
          simp only [scanCatsAux, FSNode.isDir, FSNode.name, hm, listDir, if_true]
          simp [catLevelBad, hm]

theorem scanAreasAux_error : ∀ (entries : List FSNode) (acc : List JDArea),
    (scanAreasAux acc entries = .error ()) ↔ entries.any areaLevelBad = true := by
  intro entries
  induction entries with
  | nil =>
    intro acc
    constructor
    · intro h
      exact Except.noConfusion h
    · intro h
      simp at h
  | cons e rest ih =>
    intro acc
    rw [List.any_cons]
    cases e with
    | file nm =>
      rw [show scanAreasAux acc (FSNode.file nm :: rest) = scanAreasAux acc rest from rfl]
      rw [ih acc]
      simp [areaLevelBad]
    | dir nm r cs =>
      cases hm : matchArea nm with
      | none =>
        simp only [scanAreasAux, FSNode.isDir, FSNode.name, hm, if_true]
        rw [ih acc]
        simp [areaLevelBad, hm]
      | some g =>
        obtain ⟨gc, g2⟩ := g
        cases r with
        | true =>
          simp only [scanAreasAux, FSNode.isDir, FSNode.name, hm, listDir, if_true]
          cases hc : scanCatsAux [] (sortByName cs) with
          | error er =>
            cases er
            have hbad : cs.any catLevelBad = true := by
              rw [← any_sortByName]
              exact (scanCatsAux_error _ _).1 hc
            simp [areaLevelBad, hm, hbad]
          | ok cats =>
            have hgood : cs.any catLevelBad = false := by
              cases hcs : cs.any catLevelBad with
              | false => rfl
              | true =>
                have := (scanCatsAux_error (sortByName cs) []).2
                  (by rw [any_sortByName]; exact hcs)
                rw [hc] at this
                exact Except.noConfusion this
            rw [ih]
            simp [areaLevelBad, hm, hgood]
        | false =>
          simp only [scanAreasAux, FSNode.isDir, FSNode.name, hm, listDir, if_true]
          simp [areaLevelBad, hm]

/-- A tree in which the only area directory is unreadable. -/
def fsBadC2 : FSNode := .dir "root" true [.dir "10-19 Area" false []]

/-- Counterexample to claim C2 as stated: the scan of a tree with an
unreadable area directory raises (the loop has no handler), instead of
treating it as empty and returning an index. -/
theorem C2_counterexample :
    scanFilesystem (some fsBadC2) = .error ()
    ∧ ∀ idx, scanFilesystem (some fsBadC2) ≠ .ok idx := by
  refine ⟨rfl, fun idx h => ?_⟩
  have h2 : (Except.error () : Except Unit JDex) = .ok idx :=
    (rfl : scanFilesystem (some fsBadC2) = .error ()).symm.trans h
  exact Except.noConfusion h2

/-- Claim C2 (amended): a listing failure below the root is NOT degraded to
"no entries" — the scan raises exactly when the walk reaches a directory
whose listing fails: a non-directory or unreadable root, an unreadable
pattern-matched area directory, or an unreadable pattern-matched category
directory inside a readable matched area; otherwise the scan returns an
index. -/
theorem C2_scan_error_characterization (root : Option FSNode) :
    (scanFilesystem root = .error () ↔ scanBad root = true)
    ∧ (scanBad root = false → ∃ idx, scanFilesystem root = .ok idx) := by
  have hmain : scanFilesystem root = .error () ↔ scanBad root = true := by
    cases root with
    | none =>
      constructor
      · intro h
        exact Except.noConfusion h
      · intro h
        exact Bool.noConfusion h
    | some r =>
      cases r with
      | file nm =>
        constructor
        · intro _
          rfl
        · intro _
          rfl
      | dir nm rd cs =>
        cases rd with
        | false =>
          constructor
          · intro _
            rfl
          · intro _
            rfl
        | true =>
          show (match scanAreasAux [] (sortByName cs) with
            | Except.error er => Except.error er
            | Except.ok as2 => Except.ok (JDex.mk as2)) = .error () ↔ _
          cases ha : scanAreasAux [] (sortByName cs) with
          | error er =>
            cases er
            have hbad : cs.any areaLevelBad = true := by
              rw [← any_sortByName]
              exact (scanAreasAux_error _ _).1 ha
            simpa [scanBad] using hbad
          | ok as2 =>
            have hgood : cs.any areaLevelBad = false := by
              cases hcs : cs.any areaLevelBad with
              | false => rfl
              | true =>
                have := (scanAreasAux_error (sortByName cs) []).2
                  (by rw [any_sortByName]; exact hcs)
                rw [ha] at this
                exact Except.noConfusion this
            constructor
            · intro h
              exact Except.noConfusion h
            · intro h
              rw [show scanBad (some (FSNode.dir nm true cs)) = cs.any areaLevelBad from by
                simp [scanBad]] at h
              rw [hgood] at h
              exact Bool.noConfusion h
  refine ⟨hmain, ?_⟩
  intro hgood
  cases hres : scanFilesystem root with
  | error er =>
    cases er
    rw [hmain.1 hres] at hgood
    exact Bool.noConfusion hgood
  | ok idx => exact ⟨idx, rfl⟩

/-- Witness for the amended C2: a readable empty root scans to an index. -/
theorem C2_scan_error_characterization_witness :
    ∃ idx, scanFilesystem (some (FSNode.dir "root" true [])) = .ok idx :=
  (C2_scan_error_characterization (some (FSNode.dir "root" true []))).2 rfl

/-! ## The path resolver (`core.py`) -/

/-- The match `^<escaped code>\s` of `_find_folder_by_code`: the name starts
with the code followed by one whitespace character. -/
def startsWithCodeWS (code : String) (name : String) : Bool :=
  code.data.isPrefixOf name.data
    && (match name.data.drop code.data.length with
        | c :: _ => isPySpace c
        | [] => false)

/-- `core._find_folder_by_code`: `None` for a missing parent; a raised
listing error is caught and yields `None`; otherwise the first child
directory whose name starts with the code plus whitespace. -/
def findFolderByCode (parent : Option FSNode) (code : String) : Option FSNode :=
  match parent with
  | none => none
  | some p =>
    match listDir p with
    | .error _ => none
    | .ok cs => cs.find? (fun e => e.isDir && startsWithCodeWS code e.name)

/-- `JDex.get_area`: the `_areas` dict lookup. -/
def getAreaD (idx : JDex) (code : String) : Option JDArea :=
  idx.areas.find? (fun a => a.code == code)

/-- The `(code, (owning area, category))` pairs behind the flattened
`JDex.categories` cache; the value kept for a duplicated code is the last
one, owned by the area that inserted it (its `_area` back-reference). -/
def catPairs (idx : JDex) : List (String × (JDArea × JDCategory)) :=
  idx.areasSorted.flatMap (fun a => a.catsSorted.map (fun c => (c.code, (a, c))))

/-- `JDex.get_category` together with the `category.area` back-reference. -/
def getCatWithArea (idx : JDex) (code : String) : Option (JDArea × JDCategory) :=
  ((pyDict (catPairs idx)).find? (fun p => p.1 == code)).map (fun p => p.2)

/-- `JDex.find_by_code`: dispatch on the code shape. -/
def findByCode (idx : JDex) (code : String) : Option JDItem :=
  if code.data.contains '-' then (getAreaD idx code).map JDItem.area
  else if code.data.contains '.' then
    (idx.idsFlat.find? (fun i => i.code == code)).map JDItem.id
  else (getCatWithArea idx code).map (fun p => JDItem.cat p.2)

/-- `core.resolve_path`. Note the Python truthiness checks: `not category`
is true for a category with zero IDs (`JDCategory.__len__`), and
`not category.area` for an area with zero categories (`JDArea.__len__`). -/
def resolvePath (code : String) (idx : JDex) (root : Option FSNode) : Option FSNode :=
  match findByCode idx code with
  | none => none
  | some _ =>
    if code.data.contains '-' then findFolderByCode root code
    else if code.data.contains '.' then
      match getCatWithArea idx (String.mk (code.data.takeWhile (fun c => c ≠ '.'))) with
      | none => none
      | some (area, cat) =>
        if cat.ids = [] ∨ area.categories = [] then none
        else
          match findFolderByCode root area.code with
          | none => none
          | some areaDir =>
            match findFolderByCode (some areaDir)
                (String.mk (code.data.takeWhile (fun c => c ≠ '.'))) with
            | none => none
            | some catDir => findFolderByCode (some catDir) code
    else
      match getCatWithArea idx code with
      | none => none
      | some (area, cat) =>
        if cat.ids = [] ∨ area.categories = [] then none
        else
          match findFolderByCode root area.code with
          | none => none
          | some areaDir => findFolderByCode (some areaDir) code

/-! ## Claim C7: the resolver is total and none-propagating -/

theorem findFolder_some (parent : Option FSNode) (code : String) (p : FSNode)
    (h : findFolderByCode parent code = some p) :
    p.isDir = true ∧ startsWithCodeWS code p.name = true := by
  unfold findFolderByCode at h
  split at h
  · exact Option.noConfusion h
  · split at h
    · exact Option.noConfusion h
    · have hp := List.find?_some h
      rw [Bool.and_eq_true] at hp
      exact hp

/-- Claim C7: `resolve_path` is total over the filesystem model: an unknown
code yields `none`; a missing, unreadable, or non-directory parent makes the
folder lookup yield `none` (the raised error is caught); and whenever a path
is returned it is a directory found by the last lookup, whose name starts
with the full code followed by whitespace. -/
theorem C7_resolve_total (code : String) (idx : JDex) (root : Option FSNode) :
    (findByCode idx code = none → resolvePath code idx root = none)
    ∧ (∀ p, resolvePath code idx root = some p →
        p.isDir = true ∧ startsWithCodeWS code p.name = true)
    ∧ (findFolderByCode none code = none)
    ∧ (∀ nm cs, findFolderByCode (some (.dir nm false cs)) code = none)
    ∧ (∀ nm, findFolderByCode (some (.file nm)) code = none) := by
  refine ⟨?_, ?_, rfl, fun nm cs => rfl, fun nm => rfl⟩
  · intro h
    unfold resolvePath
    rw [h]
  · intro p hp
    unfold resolvePath at hp
    split at hp
    · exact Option.noConfusion hp
    · split at hp
      · exact findFolder_some _ _ _ hp
      · split at hp
        · split at hp
          · exact Option.noConfusion hp
          · split at hp
            · exact Option.noConfusion hp
            · split at hp
              · exact Option.noConfusion hp
              · split at hp
                · exact Option.noConfusion hp
                · exact findFolder_some _ _ _ hp
        · split at hp
          · exact Option.noConfusion hp
          · split at hp
            · exact Option.noConfusion hp
            · split at hp
              · exact Option.noConfusion hp
              · exact findFolder_some _ _ _ hp

/-- Witness for C7 at a concrete unknown code. -/
theorem C7_resolve_total_witness :
    resolvePath "30-39" (JDex.mk []) (some (FSNode.dir "root" true [])) = none :=
  (C7_resolve_total "30-39" (JDex.mk []) (some (FSNode.dir "root" true []))).1 rfl

/-! ## Claim C3: section IDs in search and resolution -/

/-- Erase the section flag of an ID (codes, names, and structure kept). -/
def clearId (i : JDId) : JDId := { i with isSection := false }

def clearCat (c : JDCategory) : JDCategory := { c with ids := c.ids.map clearId }

def clearArea (a : JDArea) : JDArea := { a with categories := a.categories.map clearCat }

def clearSections (idx : JDex) : JDex := { areas := idx.areas.map clearArea }

theorem sortByCode_map {α β : Type} (keyA : α → String) (keyB : β → String) (f : α → β)
    (hk : ∀ a, keyB (f a) = keyA a) (l : List α) :
    sortByCode keyB (l.map f) = (sortByCode keyA l).map f := by
  unfold sortByCode
  exact (List.map_insertionSort _ _ f l (by
    intro a _ b _
    rw [hk a, hk b])).symm

theorem find?_map_general {α β : Type} (f : α → β) (p : β → Bool) :
    ∀ l : List α, (l.map f).find? p = (l.find? (fun a => p (f a))).map f := by
  intro l
  induction l with
  | nil => rfl
  | cons a t ih =>
    cases hp : p (f a) with
    | true => simp [List.find?, hp]
    | false => simp [List.find?, hp, ih]

theorem any_map_general {α β : Type} (f : α → β) (p : β → Bool) :
    ∀ l : List α, (l.map f).any p = l.any (fun a => p (f a)) := by
  intro l
  induction l with
  | nil => rfl
  | cons a t ih => simp [List.any_cons, ih]

theorem dictInsert_map_value {α β : Type} (f : α → β) (m : List (String × α))
    (k : String) (v : α) :
    dictInsert (m.map (fun p => (p.1, f p.2))) k (f v)
      = (dictInsert m k v).map (fun p => (p.1, f p.2)) := by
  unfold dictInsert
  have hany : ((m.map (fun p => (p.1, f p.2))).any (fun p => p.1 == k))
      = m.any (fun p => p.1 == k) := by
    rw [any_map_general]
  rw [hany]
  cases h : m.any (fun p => p.1 == k) with
  | true =>
    rw [if_pos rfl, if_pos rfl, List.map_map, List.map_map]
    apply List.map_congr_left
    intro p _
    by_cases hpk : (p.1 == k) = true
    · simp [Function.comp, hpk]
    · simp only [Bool.not_eq_true] at hpk
      simp [Function.comp, hpk]
  | false =>
    rw [if_neg (by simp), if_neg (by simp), List.map_append]
    rfl

theorem pyDict_map_value {α β : Type} (f : α → β) :
    ∀ (l acc : List (String × α)),
    (l.map (fun p => (p.1, f p.2))).foldl (fun m p => dictInsert m p.1 p.2)
        (acc.map (fun p => (p.1, f p.2)))
      = (l.foldl (fun m p => dictInsert m p.1 p.2) acc).map (fun p => (p.1, f p.2)) := by
  intro l
  induction l with
  | nil => intro acc; rfl
  | cons p t ih =>
    intro acc
    rw [List.map_cons, List.foldl_cons, List.foldl_cons]
    rw [show ((p.1, f p.2) : String × β).1 = p.1 from rfl]
    rw [show ((p.1, f p.2) : String × β).2 = f p.2 from rfl]
    rw [dictInsert_map_value]
    exact ih (dictInsert acc p.1 p.2)

theorem pyDict_map_value' {α β : Type} (f : α → β) (l : List (String × α)) :
    pyDict (l.map (fun p => (p.1, f p.2))) = (pyDict l).map (fun p => (p.1, f p.2)) := by
  unfold pyDict
  have h := pyDict_map_value f l []
  simpa using h

theorem areasSorted_clear (idx : JDex) :
    (clearSections idx).areasSorted = idx.areasSorted.map clearArea := by
  unfold JDex.areasSorted clearSections
  exact sortByCode_map JDArea.code JDArea.code clearArea (fun _ => rfl) idx.areas

theorem catsSorted_clear (a : JDArea) :
    (clearArea a).catsSorted = a.catsSorted.map clearCat := by
  unfold JDArea.catsSorted clearArea
  exact sortByCode_map JDCategory.code JDCategory.code clearCat (fun _ => rfl) a.categories

theorem idsSorted_clear (c : JDCategory) :
    (clearCat c).idsSorted = c.idsSorted.map clearId := by
  unfold JDCategory.idsSorted clearCat
  exact sortByCode_map JDId.code JDId.code clearId (fun _ => rfl) c.ids

/-- Clearing, lifted to an `(area, category)` pair. -/
def clearPair (pr : JDArea × JDCategory) : JDArea × JDCategory :=
  (clearArea pr.1, clearCat pr.2)

theorem catPairs_clear (idx : JDex) :
    catPairs (clearSections idx)
      = (catPairs idx).map (fun p => (p.1, clearPair p.2)) := by
  unfold catPairs
  rw [areasSorted_clear]
  generalize idx.areasSorted = L
  induction L with
  | nil => rfl
  | cons a t ih =>
    rw [List.map_cons, List.flatMap_cons, List.flatMap_cons, List.map_append, ih]
    congr 1
    rw [catsSorted_clear, List.map_map, List.map_map]
    rfl

theorem catsFlatIter_clear (idx : JDex) :
    (clearSections idx).areasSorted.flatMap JDArea.catsSorted
      = (idx.areasSorted.flatMap JDArea.catsSorted).map clearCat := by
  rw [areasSorted_clear]
  generalize idx.areasSorted = L
  induction L with
  | nil => rfl
  | cons a t ih =>
    rw [List.map_cons, List.flatMap_cons, List.flatMap_cons, List.map_append, ih]
    congr 1
    exact catsSorted_clear a

theorem categoriesFlat_clear (idx : JDex) :
    (clearSections idx).categoriesFlat = idx.categoriesFlat.map clearCat := by
  unfold JDex.categoriesFlat
  rw [catsFlatIter_clear]
  rw [show ((idx.areasSorted.flatMap JDArea.catsSorted).map clearCat).map
        (fun c => (c.code, c))
      = ((idx.areasSorted.flatMap JDArea.catsSorted).map (fun c => (c.code, c))).map
        (fun p => (p.1, clearCat p.2)) from by
    rw [List.map_map, List.map_map]
    rfl]
  rw [pyDict_map_value']
  rw [List.map_map, List.map_map]
  rfl

theorem idsFlatIter_clear (idx : JDex) :
    (clearSections idx).categoriesFlat.flatMap JDCategory.idsSorted
      = (idx.categoriesFlat.flatMap JDCategory.idsSorted).map clearId := by
  rw [categoriesFlat_clear]
  generalize idx.categoriesFlat = L
  induction L with
  | nil => rfl
  | cons c t ih =>
    rw [List.map_cons, List.flatMap_cons, List.flatMap_cons, List.map_append, ih]
    congr 1
    exact idsSorted_clear c

theorem idsFlat_clear (idx : JDex) :
    (clearSections idx).idsFlat = idx.idsFlat.map clearId := by
  unfold JDex.idsFlat
  rw [idsFlatIter_clear]
  rw [show ((idx.categoriesFlat.flatMap JDCategory.idsSorted).map clearId).map
        (fun i => (i.code, i))
      = ((idx.categoriesFlat.flatMap JDCategory.idsSorted).map (fun i => (i.code, i))).map
        (fun p => (p.1, clearId p.2)) from by
    rw [List.map_map, List.map_map]
    rfl]
  rw [pyDict_map_value']
  rw [List.map_map, List.map_map]
  rfl

theorem getCatWithArea_clear (idx : JDex) (code : String) :
    getCatWithArea (clearSections idx) code
      = (getCatWithArea idx code).map (fun pr => clearPair pr) := by
  unfold getCatWithArea
  rw [catPairs_clear, pyDict_map_value' clearPair, find?_map_general]
  rw [find?_congr (fun a => ((a.1, clearPair a.2) : String × (JDArea × JDCategory)).1 == code)
    (fun p => p.1 == code) (pyDict (catPairs idx)) (fun x _ => rfl)]
  cases h : (pyDict (catPairs idx)).find? (fun p => p.1 == code) with
  | none => rfl
  | some p => rfl

theorem getAreaD_clear (idx : JDex) (code : String) :
    getAreaD (clearSections idx) code = (getAreaD idx code).map clearArea := by
  unfold getAreaD
  rw [show (clearSections idx).areas = idx.areas.map clearArea from rfl]
  rw [find?_map_general]
  rw [find?_congr (fun a => (clearArea a).code == code) (fun a => a.code == code)
    idx.areas (fun x _ => rfl)]

theorem idsFind_clear (idx : JDex) (code : String) :
    (clearSections idx).idsFlat.find? (fun i => i.code == code)
      = (idx.idsFlat.find? (fun i => i.code == code)).map clearId := by
  rw [idsFlat_clear, find?_map_general]
  rw [find?_congr (fun i => (clearId i).code == code) (fun i => i.code == code)
    idx.idsFlat (fun x _ => rfl)]

/-- Clearing the section flag, lifted to search results. -/
def clearItem : JDItem → JDItem
  | .area a => .area (clearArea a)
  | .cat c => .cat (clearCat c)
  | .id i => .id (clearId i)

theorem findByCode_clear (idx : JDex) (code : String) :
    findByCode (clearSections idx) code = (findByCode idx code).map clearItem := by
  unfold findByCode
  by_cases h1 : code.data.contains '-' = true
  · rw [if_pos h1, if_pos h1, getAreaD_clear]
    cases getAreaD idx code with
    | none => rfl
    | some a => rfl
  · rw [if_neg h1, if_neg h1]
    by_cases h2 : code.data.contains '.' = true
    · rw [if_pos h2, if_pos h2, idsFind_clear]
      cases idx.idsFlat.find? (fun i => i.code == code) with
      | none => rfl
      | some i => rfl
    · rw [if_neg h2, if_neg h2, getCatWithArea_clear]
      cases getCatWithArea idx code with
      | none => rfl
      | some pr => rfl

theorem resolvePath_clearSections (code : String) (idx : JDex) (root : Option FSNode) :
    resolvePath code (clearSections idx) root = resolvePath code idx root := by
  unfold resolvePath
  rw [findByCode_clear]
  cases hf : findByCode idx code with
  | none => rfl
  | some it =>
    show (if code.data.contains '-' then _ else _) = (if code.data.contains '-' then _ else _)
    by_cases h1 : code.data.contains '-' = true
    · rw [if_pos h1, if_pos h1]
    · rw [if_neg h1, if_neg h1]
      by_cases h2 : code.data.contains '.' = true
      · rw [if_pos h2, if_pos h2]
        rw [getCatWithArea_clear]
        cases hg : getCatWithArea idx (String.mk (code.data.takeWhile (fun c => c ≠ '.'))) with
        | none => rfl
        | some pr =>
          obtain ⟨area, cat⟩ := pr
          show (if (clearCat cat).ids = [] ∨ (clearArea area).categories = [] then none
            else _) = (if cat.ids = [] ∨ area.categories = [] then none else _)
          by_cases hemp : cat.ids = [] ∨ area.categories = []
          · rw [if_pos hemp, if_pos ?_]
            rcases hemp with h | h
            · exact Or.inl (by rw [show (clearCat cat).ids = cat.ids.map clearId from rfl, h]; rfl)
            · exact Or.inr (by
                rw [show (clearArea area).categories = area.categories.map clearCat from rfl, h]
                rfl)
          · rw [if_neg hemp, if_neg ?_]
            · rfl
            · intro hcl
              apply hemp
              rcases hcl with h | h
              · exact Or.inl (List.map_eq_nil_iff.1 h)
              · exact Or.inr (List.map_eq_nil_iff.1 h)
      · rw [if_neg h2, if_neg h2]
        rw [getCatWithArea_clear]
        cases hg : getCatWithArea idx code with
        | none => rfl
        | some pr =>
          obtain ⟨area, cat⟩ := pr
          show (if (clearCat cat).ids = [] ∨ (clearArea area).categories = [] then none
            else _) = (if cat.ids = [] ∨ area.categories = [] then none else _)
          by_cases hemp : cat.ids = [] ∨ area.categories = []
          · rw [if_pos hemp, if_pos ?_]
            rcases hemp with h | h
            · exact Or.inl (by rw [show (clearCat cat).ids = cat.ids.map clearId from rfl, h]; rfl)
            · exact Or.inr (by
                rw [show (clearArea area).categories = area.categories.map clearCat from rfl, h]
                rfl)
          · rw [if_neg hemp, if_neg ?_]
            · rfl
            · intro hcl
              apply hemp
              rcases hcl with h | h
              · exact Or.inl (List.map_eq_nil_iff.1 h)
              · exact Or.inr (List.map_eq_nil_iff.1 h)

/-- An index holding a single section ID `11.10`. -/
def idxC3 : JDex :=
  { areas := [
      { code := "10-19", name := "10-19 A",
        categories := [
          { code := "11", name := "11 Cat",
            ids := [{ code := "11.10", name := "11.10 ■ Stuff", isSection := true }] }] }] }

/-- The matching on-disk tree, with the section folder present. -/
def fsC3 : FSNode :=
  .dir "root" true [.dir "10-19 A" true [.dir "11 Cat" true
    [.dir "11.10 ■ Stuff" true []]]]

/-- Counterexample to claim C3 as stated: `11.10` is a section-flagged ID
known to the index, and `resolve_path` returns its directory (the function
never inspects the section flag), not `none`. -/
theorem C3_counterexample :
    (idxC3.idsFlat.find? (fun i => i.code == "11.10")).map JDId.isSection = some true
    ∧ (resolvePath "11.10" idxC3 (some fsC3)).map FSNode.name = some "11.10 ■ Stuff"
    ∧ resolvePath "11.10" idxC3 (some fsC3) ≠ none := by
  refine ⟨by decide, by decide, fun h => ?_⟩
  have hname : (resolvePath "11.10" idxC3 (some fsC3)).map FSNode.name
      = some "11.10 ■ Stuff" := by decide
  rw [h] at hname
  exact Option.noConfusion hname

/-- Claim C3 (amended): section-flagged IDs never appear in search results
when `include_sections` is false; and `resolve_path` ignores the section
flag entirely — clearing every section flag of the index leaves every
resolution unchanged (so a section ID resolves to its directory whenever the
folder chain exists, rather than to `none`). -/
theorem C3_sections_behavior (idx : JDex) :
    (∀ q lvl x, x ∈ search idx q lvl false → x.isSectionId = false)
    ∧ (∀ code root, resolvePath code (clearSections idx) root = resolvePath code idx root) :=
  ⟨fun q lvl x hx => search_not_section idx q lvl x hx,
   fun code root => resolvePath_clearSections code idx root⟩

/-- Witness for the amended C3: a non-section item found by a concrete
search indeed carries no section flag. -/
theorem C3_sections_behavior_witness :
    (JDItem.cat
      { code := "11", name := "11 Finance",
        ids := [{ code := "11.01", name := "11.01 Inbox", isSection := false },
                { code := "11.10", name := "11.10 ■ Stuff", isSection := true }] }).isSectionId
      = false :=
  (C3_sections_behavior idxW).1 "finance" none _ (by decide)

/-! ## Claim C8: parse round-trip -/

/-- The Area parsing step as the Scanner performs it: the regex code group,
plus the display name the Scanner carries — the entire directory name
(`JDArea(code=..., name=area_dir.name)`). -/
def parseAreaDir (dirName : String) : Option (String × String) :=
  (matchArea dirName).map (fun g => (g.1, dirName))

/-- The Category parsing step with its carried display name. -/
def parseCategoryDir (dirName : String) : Option (String × String) :=
  (matchCategory dirName).map (fun g => (g.1, dirName))

/-- The ID parsing step with its carried display name and section flag. -/
def parseIdDir (dirName : String) : Option (String × String × Bool) :=
  (matchId dirName).map (fun g => (g.1, dirName, dirName.data.contains '■'))

/-- Counterexample to claim C8 as stated: `"10-19 Life"` is accepted, the
returned code is `"10-19"` and the returned display name is the entire
directory name, so code ++ " " ++ displayName is strictly longer than the
directory name and cannot be a prefix of it. -/
theorem C8_counterexample :
    parseAreaDir "10-19 Life" = some ("10-19", "10-19 Life")
    ∧ (("10-19" ++ " " ++ "10-19 Life").data.isPrefixOf ("10-19 Life").data) = false := by
  exact ⟨by decide, by decide⟩

theorem matchTail_some_shape {l g : List Char} (h : matchTail l = some g) :
    ∃ w t, isPySpace w = true ∧ l = w :: t := by
  unfold matchTail at h
  cases l with
  | nil => simp [List.takeWhile] at h
  | cons w t =>
    by_cases hw : isPySpace w = true
    · exact ⟨w, t, hw, rfl⟩
    · exfalso
      rw [List.takeWhile_cons_of_neg (by simp [hw])] at h
      simp at h

/-- Claim C8 (amended): for every directory name accepted by one of the
three parsing steps, the returned code followed by ONE whitespace character
is a prefix of the directory name, and the returned display name is the
entire directory name itself (not the text after the code). -/
theorem C8_parse_roundtrip (s : String) :
    (∀ c g, matchArea s = some (c, g) → ∃ w t, isPySpace w = true ∧ s.data = c.data ++ w :: t)
    ∧ (∀ c g, matchCategory s = some (c, g) →
        ∃ w t, isPySpace w = true ∧ s.data = c.data ++ w :: t)
    ∧ (∀ c g, matchId s = some (c, g) → ∃ w t, isPySpace w = true ∧ s.data = c.data ++ w :: t)
    ∧ (∀ c n, parseAreaDir s = some (c, n) → n = s)
    ∧ (∀ c n, parseCategoryDir s = some (c, n) → n = s)
    ∧ (∀ c n b, parseIdDir s = some (c, n, b) → n = s) := by
  refine ⟨?_, ?_, ?_, ?_, ?_, ?_⟩
  · intro c g h
    rcases hdata : s.data with _ | ⟨c0, _ | ⟨c1, _ | ⟨c2, _ | ⟨c3, _ | ⟨c4, rest⟩⟩⟩⟩⟩ <;>
        simp only [matchArea, hdata] at h <;>
      try exact Option.noConfusion h
    by_cases hc : (c0.isDigit && (c1 == '0') && (c2 == '-') && c3.isDigit && (c4 == '9')) = true
    · rw [if_pos hc] at h
      cases hmt : matchTail rest with
      | none => rw [hmt] at h; exact Option.noConfusion h
      | some g2 =>
        rw [hmt] at h
        have hcc : c = String.mk [c0, c1, c2, c3, c4] :=
          (congrArg Prod.fst (Option.some.inj h)).symm
        obtain ⟨w, t, hw, hrest⟩ := matchTail_some_shape hmt
        exact ⟨w, t, hw, by rw [hcc, hrest]; rfl⟩
    · rw [if_neg hc] at h
      exact Option.noConfusion h
  · intro c g h
    rcases hdata : s.data with _ | ⟨c0, _ | ⟨c1, rest⟩⟩ <;>
        simp only [matchCategory, hdata] at h <;>
      try exact Option.noConfusion h
    by_cases hc : (c0.isDigit && c1.isDigit) = true
    · rw [if_pos hc] at h
      cases hmt : matchTail rest with
      | none => rw [hmt] at h; exact Option.noConfusion h
      | some g2 =>
        rw [hmt] at h
        have hcc : c = String.mk [c0, c1] :=
          (congrArg Prod.fst (Option.some.inj h)).symm
        obtain ⟨w, t, hw, hrest⟩ := matchTail_some_shape hmt
        exact ⟨w, t, hw, by rw [hcc, hrest]; rfl⟩
    · rw [if_neg hc] at h
      exact Option.noConfusion h
  · intro c g h
    rcases hdata : s.data with _ | ⟨c0, _ | ⟨c1, _ | ⟨c2, _ | ⟨c3, _ | ⟨c4, rest⟩⟩⟩⟩⟩ <;>
        simp only [matchId, hdata] at h <;>
      try exact Option.noConfusion h
    by_cases hc : (c0.isDigit && c1.isDigit && (c2 == '.') && c3.isDigit && c4.isDigit) = true
    · rw [if_pos hc] at h
      cases hmt : matchTail rest with
      | none => rw [hmt] at h; exact Option.noConfusion h
      | some g2 =>
        rw [hmt] at h
        have hcc : c = String.mk [c0, c1, c2, c3, c4] :=
          (congrArg Prod.fst (Option.some.inj h)).symm
        obtain ⟨w, t, hw, hrest⟩ := matchTail_some_shape hmt
        exact ⟨w, t, hw, by rw [hcc, hrest]; rfl⟩
    · rw [if_neg hc] at h
      exact Option.noConfusion h
  · intro c n h
    unfold parseAreaDir at h
    cases hm : matchArea s with
    | none => rw [hm] at h; exact Option.noConfusion h
    | some g =>
      rw [hm] at h
      exact (congrArg (fun p => p.2) (Option.some.inj h)).symm
  · intro c n h
    unfold parseCategoryDir at h
    cases hm : matchCategory s with
    | none => rw [hm] at h; exact Option.noConfusion h
    | some g =>
      rw [hm] at h
      exact (congrArg (fun p => p.2) (Option.some.inj h)).symm
  · intro c n b h
    unfold parseIdDir at h
    cases hm : matchId s with
    | none => rw [hm] at h; exact Option.noConfusion h
    | some g =>
      rw [hm] at h
      exact (congrArg (fun p => p.2.1) (Option.some.inj h)).symm

/-- Witness for the amended C8 at a concrete accepted directory name. -/
theorem C8_parse_roundtrip_witness :
    ∃ w t, isPySpace w = true
      ∧ ("10-19 Life" : String).data = ("10-19" : String).data ++ w :: t :=
  (C8_parse_roundtrip "10-19 Life").1 "10-19" "Life" (by decide)

/-! ## Claim C9: parent ownership (object-store model of
add_id / remove_id / add_category / remove_category) -/

/-- An Id object in the object store: its code and its `_category`
back-reference, modelled as an index into the store's Category objects. -/
structure IdObj where
  code : String
  parent : Option Nat
deriving DecidableEq

/-- A Category object: its code, its `_ids` dict (code -> Id object index),
and its `_area` back-reference. -/
structure CatObj where
  code : String
  idsMap : List (String × Nat)
  parent : Option Nat
deriving DecidableEq

/-- An Area object: its code and its `_categories` dict. -/
structure AreaObj where
  code : String
  catsMap : List (String × Nat)
deriving DecidableEq

/-- The object store: Python objects live in arenas, references are indices. -/
structure JDStore where
  idObjs : List IdObj
  catObjs : List CatObj
  areaObjs : List AreaObj
deriving DecidableEq

/-- In-place update of the element at an index, if any. -/
def modIdx {α : Type} : List α → Nat → (α → α) → List α
  | [], _, _ => []
  | a :: t, 0, f => f a :: t
  | a :: t, n + 1, f => a :: modIdx t n f

/-- JDCategory.add_id: sets the Id's back-reference to this category and
stores it under its code. It does NOT detach the Id from a previous owner. -/
def JDStore.addId (s : JDStore) (c r : Nat) : JDStore :=
  match s.idObjs[r]?, s.catObjs[c]? with
  | some o, some _ =>
    { s with
      idObjs := modIdx s.idObjs r (fun x => { x with parent := some c }),
      catObjs := modIdx s.catObjs c
        (fun x => { x with idsMap := dictInsert x.idsMap o.code r }) }
  | _, _ => s

/-- JDCategory.remove_id: pops the entry for the code (no-op when absent)
and clears the popped Id's back-reference. -/
def JDStore.removeId (s : JDStore) (c : Nat) (code : String) : JDStore :=
  match s.catObjs[c]? with
  | none => s
  | some co =>
    match co.idsMap.find? (fun p => p.1 == code) with
    | none => s
    | some pr =>
      { s with
        catObjs := modIdx s.catObjs c
          (fun x => { x with idsMap := x.idsMap.eraseP (fun p => p.1 == code) }),
        idObjs := modIdx s.idObjs pr.2 (fun x => { x with parent := none }) }

/-- JDArea.add_category: same shape as add_id, one level up. -/
def JDStore.addCategory (s : JDStore) (a c : Nat) : JDStore :=
  match s.catObjs[c]?, s.areaObjs[a]? with
  | some co, some _ =>
    { s with
      catObjs := modIdx s.catObjs c (fun x => { x with parent := some a }),
      areaObjs := modIdx s.areaObjs a
        (fun x => { x with catsMap := dictInsert x.catsMap co.code c }) }
  | _, _ => s

/-- JDArea.remove_category: pops the entry and clears the back-reference. -/
def JDStore.removeCategory (s : JDStore) (a : Nat) (code : String) : JDStore :=
  match s.areaObjs[a]? with
  | none => s
  | some ao =>
    match ao.catsMap.find? (fun p => p.1 == code) with
    | none => s
    | some pr =>
      { s with
        areaObjs := modIdx s.areaObjs a
          (fun x => { x with catsMap := x.catsMap.eraseP (fun p => p.1 == code) }),
        catObjs := modIdx s.catObjs pr.2 (fun x => { x with parent := none }) }

/-- The four mutating parent/child operations of models.py. -/
inductive JDOp where
  | addId (c r : Nat)
  | removeId (c : Nat) (code : String)
  | addCategory (a c : Nat)
  | removeCategory (a : Nat) (code : String)
deriving DecidableEq

def applyOp (s : JDStore) : JDOp → JDStore
  | .addId c r => s.addId c r
  | .removeId c code => s.removeId c code
  | .addCategory a c => s.addCategory a c
  | .removeCategory a code => s.removeCategory a code

def JDStore.applyOps (s : JDStore) (ops : List JDOp) : JDStore :=
  ops.foldl applyOp s

/-- An add is valid when the added child is currently detached (its
back-reference is none); removals are always valid. -/
def validOpB (s : JDStore) : JDOp → Bool
  | .addId _ r =>
    match s.idObjs[r]? with
    | none => true
    | some o => o.parent == none
  | .addCategory _ c =>
    match s.catObjs[c]? with
    | none => true
    | some co => co.parent == none
  | _ => true

def validSeqB : JDStore → List JDOp → Bool
  | _, [] => true
  | s, op :: ops => validOpB s op && validSeqB (applyOp s op) ops

/-- The ids dict of the category at an index (empty when out of range). -/
def idsAt (cats : List CatObj) (c : Nat) : List (String × Nat) :=
  match cats[c]? with
  | none => []
  | some x => x.idsMap

/-- The categories dict of the area at an index. -/
def catsAt (areas : List AreaObj) (a : Nat) : List (String × Nat) :=
  match areas[a]? with
  | none => []
  | some x => x.catsMap

/-- A dict entry (key, ref) of category c is coherent: the referenced Id
object exists, has that key as code, and points back at category c. -/
def idOkB (ids : List IdObj) (c : Nat) (p : String × Nat) : Bool :=
  match ids[p.2]? with
  | none => false
  | some o => o.code == p.1 && o.parent == some c

/-- A dict entry of area a is coherent, one level up. -/
def catOkB (cats : List CatObj) (a : Nat) (p : String × Nat) : Bool :=
  match cats[p.2]? with
  | none => false
  | some x => x.code == p.1 && x.parent == some a

/-- Ownership invariant: every containment-dict entry is coherent and every
dict has no duplicate keys, at both levels. -/
abbrev storeInv (s : JDStore) : Prop :=
  (∀ c, c < s.catObjs.length →
    (∀ p ∈ idsAt s.catObjs c, idOkB s.idObjs c p = true)
      ∧ ((idsAt s.catObjs c).map Prod.fst).Nodup)
  ∧ (∀ a, a < s.areaObjs.length →
    (∀ p ∈ catsAt s.areaObjs a, catOkB s.catObjs a p = true)
      ∧ ((catsAt s.areaObjs a).map Prod.fst).Nodup)

/-- Does category c contain a reference to Id object r? -/
def catHasRef (s : JDStore) (c r : Nat) : Bool :=
  (idsAt s.catObjs c).any (fun p => p.2 == r)

/-- Does area a contain a reference to Category object c? -/
def areaHasRef (s : JDStore) (a c : Nat) : Bool :=
  (catsAt s.areaObjs a).any (fun p => p.2 == c)

/-- The Id object reference stored in category c under a code, if any. -/
def lookupIdRef (s : JDStore) (c : Nat) (code : String) : Option Nat :=
  ((idsAt s.catObjs c).find? (fun p => p.1 == code)).map Prod.snd

/-- The Category object reference stored in area a under a code, if any. -/
def lookupCatRef (s : JDStore) (a : Nat) (code : String) : Option Nat :=
  ((catsAt s.areaObjs a).find? (fun p => p.1 == code)).map Prod.snd

theorem bool_and_split {a b : Bool} (h : (a && b) = true) : a = true ∧ b = true := by
  cases a <;> cases b <;> simp_all

theorem modIdx_length {α : Type} (l : List α) (i : Nat) (f : α → α) :
    (modIdx l i f).length = l.length := by
  induction l generalizing i with
  | nil => rfl
  | cons a t ih =>
    cases i with
    | zero => simp [modIdx]
    | succ n => simp [modIdx, ih]

theorem getElem?_modIdx {α : Type} (l : List α) (i j : Nat) (f : α → α) :
    (modIdx l i f)[j]? = if i = j then (l[j]?).map f else l[j]? := by
  induction l generalizing i j with
  | nil => simp [modIdx]
  | cons a t ih =>
    cases i with
    | zero =>
      cases j with
      | zero => simp [modIdx]
      | succ j => simp [modIdx]
    | succ i =>
      cases j with
      | zero => simp [modIdx]
      | succ j => simp [modIdx, ih]

theorem lt_of_getElem?_some {α : Type} {l : List α} {i : Nat} {a : α}
    (h : l[i]? = some a) : i < l.length := by
  by_contra hn
  rw [List.getElem?_eq_none (Nat.le_of_not_lt hn)] at h
  exact Option.noConfusion h

theorem mem_dictInsert {α : Type} {d : List (String × α)} {k : String} {v : α}
    {p : String × α} (hp : p ∈ dictInsert d k v) :
    p = (k, v) ∨ (p ∈ d ∧ ¬ p.1 = k) := by
  unfold dictInsert at hp
  by_cases hany : d.any (fun q => q.1 == k) = true
  · rw [if_pos hany] at hp
    obtain ⟨q, hq, hqe⟩ := List.mem_map.1 hp
    by_cases hk : (q.1 == k) = true
    · rw [if_pos hk] at hqe
      exact Or.inl hqe.symm
    · rw [if_neg hk] at hqe
      exact Or.inr ⟨hqe ▸ hq, fun he => hk (by rw [← hqe] at he; simp [he])⟩
  · rw [if_neg hany] at hp
    rcases List.mem_append.1 hp with h1 | h2
    · refine Or.inr ⟨h1, fun he => hany ?_⟩
      exact List.any_eq_true.2 ⟨p, h1, by simp [he]⟩
    · exact Or.inl (by simpa using h2)

theorem keys_dictInsert_nodup {α : Type} {d : List (String × α)} {k : String}
    {v : α} (hn : (d.map Prod.fst).Nodup) :
    ((dictInsert d k v).map Prod.fst).Nodup := by
  unfold dictInsert
  by_cases hany : d.any (fun q => q.1 == k) = true
  · rw [if_pos hany]
    have hkeys : (d.map (fun q => if q.1 == k then (k, v) else q)).map Prod.fst
        = d.map Prod.fst := by
      rw [List.map_map]
      refine List.map_congr_left ?_
      intro q hq
      by_cases hk : (q.1 == k) = true
      · show Prod.fst (if q.1 == k then (k, v) else q) = q.1
        rw [if_pos hk]
        exact (eq_of_beq hk).symm
      · show Prod.fst (if q.1 == k then (k, v) else q) = q.1
        rw [if_neg hk]
    rw [hkeys]
    exact hn
  · rw [if_neg hany, List.map_append]
    refine List.Nodup.append hn (List.nodup_singleton k) ?_
    intro x hx hx2
    have hxk : x = k := by simpa using hx2
    obtain ⟨q, hq, hqe⟩ := List.mem_map.1 hx
    exact hany (List.any_eq_true.2 ⟨q, hq, by rw [hqe, hxk]; simp⟩)

theorem mem_erasePKey {α : Type} {d : List (String × α)} {k : String}
    (hn : (d.map Prod.fst).Nodup) {p : String × α}
    (hp : p ∈ d.eraseP (fun q => q.1 == k)) : p ∈ d ∧ ¬ p.1 = k := by
  induction d with
  | nil => simp [List.eraseP] at hp
  | cons q t ih =>
    rw [List.map_cons, List.nodup_cons] at hn
    cases hk : (q.1 == k) with
    | true =>
      simp only [List.eraseP_cons, hk, cond_true] at hp
      refine ⟨List.mem_cons_of_mem q hp, fun he => hn.1 ?_⟩
      rw [eq_of_beq hk, ← he]
      exact List.mem_map.2 ⟨p, hp, rfl⟩
    | false =>
      simp only [List.eraseP_cons, hk, cond_false] at hp
      rcases List.mem_cons.1 hp with hpq | hpt
      · refine ⟨by rw [hpq]; exact List.mem_cons_self q t, fun he => ?_⟩
        rw [hpq] at he
        rw [he] at hk
        simp at hk
      · obtain ⟨h1, h2⟩ := ih hn.2 hpt
        exact ⟨List.mem_cons_of_mem q h1, h2⟩

theorem keys_eraseP_nodup {α : Type} {d : List (String × α)}
    {q : String × α → Bool} (hn : (d.map Prod.fst).Nodup) :
    ((d.eraseP q).map Prod.fst).Nodup :=
  List.Nodup.sublist ((List.eraseP_sublist d).map Prod.fst) hn

theorem idsAt_modIdx_set {cats : List CatObj} {c : Nat} {co : CatObj}
    (hc : cats[c]? = some co) (g : CatObj → List (String × Nat)) (c2 : Nat) :
    idsAt (modIdx cats c (fun x => { x with idsMap := g x })) c2
      = if c = c2 then g co else idsAt cats c2 := by
  unfold idsAt
  rw [getElem?_modIdx]
  by_cases hcc : c = c2
  · rw [if_pos hcc, if_pos hcc, ← hcc, hc]
    rfl
  · rw [if_neg hcc, if_neg hcc]

theorem idsAt_modIdx_keep {cats : List CatObj} {c c2 : Nat} (f : CatObj → CatObj)
    (hf : ∀ x, (f x).idsMap = x.idsMap) :
    idsAt (modIdx cats c f) c2 = idsAt cats c2 := by
  unfold idsAt
  rw [getElem?_modIdx]
  by_cases hcc : c = c2
  · rw [if_pos hcc]
    cases hl : cats[c2]? with
    | none => rfl
    | some x => simp [hf x]
  · rw [if_neg hcc]

theorem catsAt_modIdx_set {areas : List AreaObj} {a : Nat} {ao : AreaObj}
    (ha : areas[a]? = some ao) (g : AreaObj → List (String × Nat)) (a2 : Nat) :
    catsAt (modIdx areas a (fun x => { x with catsMap := g x })) a2
      = if a = a2 then g ao else catsAt areas a2 := by
  unfold catsAt
  rw [getElem?_modIdx]
  by_cases haa : a = a2
  · rw [if_pos haa, if_pos haa, ← haa, ha]
    rfl
  · rw [if_neg haa, if_neg haa]

theorem idOkB_modIdx_ne {ids : List IdObj} {r : Nat} {f : IdObj → IdObj}
    {c : Nat} {p : String × Nat} (hne : ¬ r = p.2) :
    idOkB (modIdx ids r f) c p = idOkB ids c p := by
  unfold idOkB
  rw [getElem?_modIdx, if_neg hne]

theorem catOkB_modIdx_ne {cats : List CatObj} {c : Nat} {f : CatObj → CatObj}
    {a : Nat} {p : String × Nat} (hne : ¬ c = p.2) :
    catOkB (modIdx cats c f) a p = catOkB cats a p := by
  unfold catOkB
  rw [getElem?_modIdx, if_neg hne]

theorem catOkB_modIdx_keep {cats : List CatObj} {c : Nat} (f : CatObj → CatObj)
    (hf : ∀ x, (f x).code = x.code ∧ (f x).parent = x.parent)
    (a : Nat) (p : String × Nat) :
    catOkB (modIdx cats c f) a p = catOkB cats a p := by
  unfold catOkB
  rw [getElem?_modIdx]
  by_cases hcc : c = p.2
  · rw [if_pos hcc]
    cases hl : cats[p.2]? with
    | none => rfl
    | some x => simp [(hf x).1, (hf x).2]
  · rw [if_neg hcc]

theorem storeInv_addId {s : JDStore} {c r : Nat} (h : storeInv s)
    (hv : validOpB s (JDOp.addId c r) = true) : storeInv (JDStore.addId s c r) := by
  rcases ho : s.idObjs[r]? with _ | o <;> rcases hc : s.catObjs[c]? with _ | co
  · simp only [JDStore.addId, ho, hc]
    exact h
  · simp only [JDStore.addId, ho, hc]
    exact h
  · simp only [JDStore.addId, ho, hc]
    exact h
  · have hpar : o.parent = none := by
      simp only [validOpB, ho] at hv
      exact eq_of_beq hv
    obtain ⟨h1, h2⟩ := h
    simp only [JDStore.addId, ho, hc]
    unfold storeInv
    dsimp only
    constructor
    · intro c2 hlen
      rw [modIdx_length] at hlen
      have hids := idsAt_modIdx_set hc (fun x => dictInsert x.idsMap o.code r) c2
      by_cases hcc : c = c2
      · subst hcc
        rw [hids, if_pos rfl]
        have hndc := (h1 c (lt_of_getElem?_some hc)).2
        have hidsc : idsAt s.catObjs c = co.idsMap := by
          unfold idsAt
          rw [hc]
        rw [hidsc] at hndc
        constructor
        · intro p hp
          rcases mem_dictInsert hp with hpe | ⟨hpd, hpk⟩
          · subst hpe
            unfold idOkB
            dsimp only
            rw [getElem?_modIdx, if_pos rfl, ho]
            simp
          · have hoc := (h1 c (lt_of_getElem?_some hc)).1 p (by rw [hidsc]; exact hpd)
            have hpne : ¬ r = p.2 := by
              intro he
              unfold idOkB at hoc
              rw [← he, ho] at hoc
              exact hpk (eq_of_beq (bool_and_split hoc).1).symm
            rw [idOkB_modIdx_ne hpne]
            exact hoc
        · exact keys_dictInsert_nodup hndc
      · rw [hids, if_neg hcc]
        obtain ⟨hall, hnd⟩ := h1 c2 hlen
        refine ⟨?_, hnd⟩
        intro p hp
        have hoc := hall p hp
        have hpne : ¬ r = p.2 := by
          intro he
          unfold idOkB at hoc
          rw [← he, ho] at hoc
          have hb := (bool_and_split hoc).2
          rw [hpar] at hb
          exact Option.noConfusion (eq_of_beq hb)
        rw [idOkB_modIdx_ne hpne]
        exact hoc
    · intro a ha
      obtain ⟨hall, hnd⟩ := h2 a ha
      refine ⟨?_, hnd⟩
      intro p hp
      rw [catOkB_modIdx_keep (fun x => { x with idsMap := dictInsert x.idsMap o.code r })
        (fun x => And.intro rfl rfl)]
      exact hall p hp

theorem storeInv_removeId {s : JDStore} {c : Nat} {code : String}
    (h : storeInv s) : storeInv (JDStore.removeId s c code) := by
  rcases hc : s.catObjs[c]? with _ | co
  · simp only [JDStore.removeId, hc]
    exact h
  · rcases hf : co.idsMap.find? (fun p => p.1 == code) with _ | pr
    · simp only [JDStore.removeId, hc, hf]
      exact h
    · obtain ⟨h1, h2⟩ := h
      have hclt := lt_of_getElem?_some hc
      have hidsc : idsAt s.catObjs c = co.idsMap := by
        unfold idsAt
        rw [hc]
      have hprmem : pr ∈ co.idsMap := List.mem_of_find?_eq_some hf
      have hprkey : (pr.1 == code) = true := by
        have hk := List.find?_some hf
        simpa using hk
      have hprok := (h1 c hclt).1 pr (by rw [hidsc]; exact hprmem)
      have hoidE : ∃ oid, s.idObjs[pr.2]? = some oid
          ∧ oid.code = pr.1 ∧ oid.parent = some c := by
        unfold idOkB at hprok
        rcases hx : s.idObjs[pr.2]? with _ | oid
        · rw [hx] at hprok
          simp at hprok
        · rw [hx] at hprok
          obtain ⟨ha, hb⟩ := bool_and_split hprok
          exact ⟨oid, rfl, eq_of_beq ha, eq_of_beq hb⟩
      obtain ⟨oid, hoid, hoidc, hoidp⟩ := hoidE
      simp only [JDStore.removeId, hc, hf]
      unfold storeInv
      dsimp only
      constructor
      · intro c2 hlen
        rw [modIdx_length] at hlen
        have hids := idsAt_modIdx_set hc
          (fun x => x.idsMap.eraseP (fun p => p.1 == code)) c2
        by_cases hcc : c = c2
        · subst hcc
          rw [hids, if_pos rfl]
          have hndc := (h1 c hclt).2
          rw [hidsc] at hndc
          constructor
          · intro p hp
            obtain ⟨hpd, hpk⟩ := mem_erasePKey hndc hp
            have hoc := (h1 c hclt).1 p (by rw [hidsc]; exact hpd)
            have hpne : ¬ pr.2 = p.2 := by
              intro he
              unfold idOkB at hoc
              rw [← he, hoid] at hoc
              have hpc : p.1 = code := by
                rw [← eq_of_beq (bool_and_split hoc).1, hoidc]
                exact eq_of_beq hprkey
              exact hpk hpc
            rw [idOkB_modIdx_ne hpne]
            exact hoc
          · exact keys_eraseP_nodup hndc
        · rw [hids, if_neg hcc]
          obtain ⟨hall, hnd⟩ := h1 c2 hlen
          refine ⟨?_, hnd⟩
          intro p hp
          have hoc := hall p hp
          have hpne : ¬ pr.2 = p.2 := by
            intro he
            unfold idOkB at hoc
            rw [← he, hoid] at hoc
            have hb := (bool_and_split hoc).2
            have heq : (some c : Option Nat) = some c2 := by
              rw [← hoidp]
              exact eq_of_beq hb
            exact hcc (Option.some.inj heq)
          rw [idOkB_modIdx_ne hpne]
          exact hoc
      · intro a ha
        obtain ⟨hall, hnd⟩ := h2 a ha
        refine ⟨?_, hnd⟩
        intro p hp
        rw [catOkB_modIdx_keep
          (fun x => { x with idsMap := x.idsMap.eraseP (fun p => p.1 == code) })
          (fun x => And.intro rfl rfl)]
        exact hall p hp

theorem storeInv_addCategory {s : JDStore} {a c : Nat} (h : storeInv s)
    (hv : validOpB s (JDOp.addCategory a c) = true) :
    storeInv (JDStore.addCategory s a c) := by
  rcases hc : s.catObjs[c]? with _ | co <;> rcases ha : s.areaObjs[a]? with _ | ao
  · simp only [JDStore.addCategory, hc, ha]
    exact h
  · simp only [JDStore.addCategory, hc, ha]
    exact h
  · simp only [JDStore.addCategory, hc, ha]
    exact h
  · have hpar : co.parent = none := by
      simp only [validOpB, hc] at hv
      exact eq_of_beq hv
    obtain ⟨h1, h2⟩ := h
    simp only [JDStore.addCategory, hc, ha]
    unfold storeInv
    dsimp only
    constructor
    · intro c2 hlen
      rw [modIdx_length] at hlen
      rw [idsAt_modIdx_keep (fun x => { x with parent := some a }) (fun x => rfl)]
      exact h1 c2 hlen
    · intro a2 hlen
      rw [modIdx_length] at hlen
      have hcats := catsAt_modIdx_set ha (fun x => dictInsert x.catsMap co.code c) a2
      by_cases haa : a = a2
      · subst haa
        rw [hcats, if_pos rfl]
        have hnda := (h2 a (lt_of_getElem?_some ha)).2
        have hcatsa : catsAt s.areaObjs a = ao.catsMap := by
          unfold catsAt
          rw [ha]
        rw [hcatsa] at hnda
        constructor
        · intro p hp
          rcases mem_dictInsert hp with hpe | ⟨hpd, hpk⟩
          · subst hpe
            unfold catOkB
            dsimp only
            rw [getElem?_modIdx, if_pos rfl, hc]
            simp
          · have hoc := (h2 a (lt_of_getElem?_some ha)).1 p (by rw [hcatsa]; exact hpd)
            have hpne : ¬ c = p.2 := by
              intro he
              unfold catOkB at hoc
              rw [← he, hc] at hoc
              exact hpk (eq_of_beq (bool_and_split hoc).1).symm
            rw [catOkB_modIdx_ne hpne]
            exact hoc
        · exact keys_dictInsert_nodup hnda
      · rw [hcats, if_neg haa]
        obtain ⟨hall, hnd⟩ := h2 a2 hlen
        refine ⟨?_, hnd⟩
        intro p hp
        have hoc := hall p hp
        have hpne : ¬ c = p.2 := by
          intro he
          unfold catOkB at hoc
          rw [← he, hc] at hoc
          have hb := (bool_and_split hoc).2
          rw [hpar] at hb
          exact Option.noConfusion (eq_of_beq hb)
        rw [catOkB_modIdx_ne hpne]
        exact hoc

theorem storeInv_removeCategory {s : JDStore} {a : Nat} {code : String}
    (h : storeInv s) : storeInv (JDStore.removeCategory s a code) := by
  rcases ha : s.areaObjs[a]? with _ | ao
  · simp only [JDStore.removeCategory, ha]
    exact h
  · rcases hf : ao.catsMap.find? (fun p => p.1 == code) with _ | pr
    · simp only [JDStore.removeCategory, ha, hf]
      exact h
    · obtain ⟨h1, h2⟩ := h
      have halt := lt_of_getElem?_some ha
      have hcatsa : catsAt s.areaObjs a = ao.catsMap := by
        unfold catsAt
        rw [ha]
      have hprmem : pr ∈ ao.catsMap := List.mem_of_find?_eq_some hf
      have hprkey : (pr.1 == code) = true := by
        have hk := List.find?_some hf
        simpa using hk
      have hprok := (h2 a halt).1 pr (by rw [hcatsa]; exact hprmem)
      have hcoE : ∃ cobj, s.catObjs[pr.2]? = some cobj
          ∧ cobj.code = pr.1 ∧ cobj.parent = some a := by
        unfold catOkB at hprok
        rcases hx : s.catObjs[pr.2]? with _ | cobj
        · rw [hx] at hprok
          simp at hprok
        · rw [hx] at hprok
          obtain ⟨hca, hcb⟩ := bool_and_split hprok
          exact ⟨cobj, rfl, eq_of_beq hca, eq_of_beq hcb⟩
      obtain ⟨cobj, hco, hcoc, hcop⟩ := hcoE
      simp only [JDStore.removeCategory, ha, hf]
      unfold storeInv
      dsimp only
      constructor
      · intro c2 hlen
        rw [modIdx_length] at hlen
        rw [idsAt_modIdx_keep (fun x => { x with parent := none }) (fun x => rfl)]
        exact h1 c2 hlen
      · intro a2 hlen
        rw [modIdx_length] at hlen
        have hcats := catsAt_modIdx_set ha
          (fun x => x.catsMap.eraseP (fun p => p.1 == code)) a2
        by_cases haa : a = a2
        · subst haa
          rw [hcats, if_pos rfl]
          have hnda := (h2 a halt).2
          rw [hcatsa] at hnda
          constructor
          · intro p hp
            obtain ⟨hpd, hpk⟩ := mem_erasePKey hnda hp
            have hoc := (h2 a halt).1 p (by rw [hcatsa]; exact hpd)
            have hpne : ¬ pr.2 = p.2 := by
              intro he
              unfold catOkB at hoc
              rw [← he, hco] at hoc
              have hpc : p.1 = code := by
                rw [← eq_of_beq (bool_and_split hoc).1, hcoc]
                exact eq_of_beq hprkey
              exact hpk hpc
            rw [catOkB_modIdx_ne hpne]
            exact hoc
          · exact keys_eraseP_nodup hnda
        · rw [hcats, if_neg haa]
          obtain ⟨hall, hnd⟩ := h2 a2 hlen
          refine ⟨?_, hnd⟩
          intro p hp
          have hoc := hall p hp
          have hpne : ¬ pr.2 = p.2 := by
            intro he
            unfold catOkB at hoc
            rw [← he, hco] at hoc
            have hb := (bool_and_split hoc).2
            have heq : (some a : Option Nat) = some a2 := by
              rw [← hcop]
              exact eq_of_beq hb
            exact haa (Option.some.inj heq)
          rw [catOkB_modIdx_ne hpne]
          exact hoc

theorem storeInv_step {s : JDStore} {op : JDOp} (h : storeInv s)
    (hv : validOpB s op = true) : storeInv (applyOp s op) := by
  cases op with
  | addId c r => exact storeInv_addId h hv
  | removeId c code => exact storeInv_removeId h
  | addCategory a c => exact storeInv_addCategory h hv
  | removeCategory a code => exact storeInv_removeCategory h

theorem storeInv_applyOps {s : JDStore} {ops : List JDOp} (h : storeInv s)
    (hv : validSeqB s ops = true) : storeInv (JDStore.applyOps s ops) := by
  induction ops generalizing s with
  | nil => exact h
  | cons op t ih =>
    simp only [validSeqB] at hv
    obtain ⟨hv1, hv2⟩ := bool_and_split hv
    show storeInv (JDStore.applyOps (applyOp s op) t)
    exact ih (storeInv_step h hv1) hv2

theorem catRef_exclusive {s : JDStore} (h : storeInv s) (i j r : Nat)
    (hi : catHasRef s i r = true) (hj : catHasRef s j r = true) : i = j := by
  obtain ⟨p, hp, hpr⟩ := List.any_eq_true.1 hi
  obtain ⟨q, hq, hqr⟩ := List.any_eq_true.1 hj
  have hilt : i < s.catObjs.length := by
    rcases hx : s.catObjs[i]? with _ | x
    · unfold idsAt at hp
      rw [hx] at hp
      simp at hp
    · exact lt_of_getElem?_some hx
  have hjlt : j < s.catObjs.length := by
    rcases hx : s.catObjs[j]? with _ | x
    · unfold idsAt at hq
      rw [hx] at hq
      simp at hq
    · exact lt_of_getElem?_some hx
  have h1 := (h.1 i hilt).1 p hp
  have h2 := (h.1 j hjlt).1 q hq
  unfold idOkB at h1 h2
  have hpr2 : p.2 = r := by simpa using hpr
  have hqr2 : q.2 = r := by simpa using hqr
  rw [hpr2] at h1
  rw [hqr2] at h2
  rcases ho : s.idObjs[r]? with _ | o
  · rw [ho] at h1
    simp at h1
  · rw [ho] at h1
    rw [ho] at h2
    have hi2 := eq_of_beq (bool_and_split h1).2
    have hj2 := eq_of_beq (bool_and_split h2).2
    exact Option.some.inj (hi2.symm.trans hj2)

theorem areaRef_exclusive {s : JDStore} (h : storeInv s) (i j c : Nat)
    (hi : areaHasRef s i c = true) (hj : areaHasRef s j c = true) : i = j := by
  obtain ⟨p, hp, hpr⟩ := List.any_eq_true.1 hi
  obtain ⟨q, hq, hqr⟩ := List.any_eq_true.1 hj
  have hilt : i < s.areaObjs.length := by
    rcases hx : s.areaObjs[i]? with _ | x
    · unfold catsAt at hp
      rw [hx] at hp
      simp at hp
    · exact lt_of_getElem?_some hx
  have hjlt : j < s.areaObjs.length := by
    rcases hx : s.areaObjs[j]? with _ | x
    · unfold catsAt at hq
      rw [hx] at hq
      simp at hq
    · exact lt_of_getElem?_some hx
  have h1 := (h.2 i hilt).1 p hp
  have h2 := (h.2 j hjlt).1 q hq
  unfold catOkB at h1 h2
  have hpr2 : p.2 = c := by simpa using hpr
  have hqr2 : q.2 = c := by simpa using hqr
  rw [hpr2] at h1
  rw [hqr2] at h2
  rcases ho : s.catObjs[c]? with _ | x
  · rw [ho] at h1
    simp at h1
  · rw [ho] at h1
    rw [ho] at h2
    have hi2 := eq_of_beq (bool_and_split h1).2
    have hj2 := eq_of_beq (bool_and_split h2).2
    exact Option.some.inj (hi2.symm.trans hj2)

theorem removeId_clears {s : JDStore} (h : storeInv s) {c : Nat} {code : String}
    {r : Nat} (hl : lookupIdRef s c code = some r) :
    ((JDStore.removeId s c code).idObjs[r]?).map IdObj.parent = some none := by
  unfold lookupIdRef at hl
  rcases hf : (idsAt s.catObjs c).find? (fun p => p.1 == code) with _ | pr
  · rw [hf] at hl
    exact Option.noConfusion hl
  · rw [hf] at hl
    have hr : pr.2 = r := by simpa using hl
    rcases hc : s.catObjs[c]? with _ | co
    · unfold idsAt at hf
      rw [hc] at hf
      simp at hf
    · have hidsc : idsAt s.catObjs c = co.idsMap := by
        unfold idsAt
        rw [hc]
      rw [hidsc] at hf
      have hclt := lt_of_getElem?_some hc
      have hprmem := List.mem_of_find?_eq_some hf
      have hok := (h.1 c hclt).1 pr (by rw [hidsc]; exact hprmem)
      have hoidE : ∃ oid, s.idObjs[pr.2]? = some oid := by
        unfold idOkB at hok
        rcases hx : s.idObjs[pr.2]? with _ | oid
        · rw [hx] at hok
          simp at hok
        · exact ⟨oid, rfl⟩
      obtain ⟨oid, hoid⟩ := hoidE
      simp only [JDStore.removeId, hc, hf]
      rw [← hr, getElem?_modIdx, if_pos rfl, hoid]
      rfl

theorem removeCategory_clears {s : JDStore} (h : storeInv s) {a : Nat}
    {code : String} {c : Nat} (hl : lookupCatRef s a code = some c) :
    ((JDStore.removeCategory s a code).catObjs[c]?).map CatObj.parent = some none := by
  unfold lookupCatRef at hl
  rcases hf : (catsAt s.areaObjs a).find? (fun p => p.1 == code) with _ | pr
  · rw [hf] at hl
    exact Option.noConfusion hl
  · rw [hf] at hl
    have hr : pr.2 = c := by simpa using hl
    rcases ha : s.areaObjs[a]? with _ | ao
    · unfold catsAt at hf
      rw [ha] at hf
      simp at hf
    · have hcatsa : catsAt s.areaObjs a = ao.catsMap := by
        unfold catsAt
        rw [ha]
      rw [hcatsa] at hf
      have halt := lt_of_getElem?_some ha
      have hprmem := List.mem_of_find?_eq_some hf
      have hok := (h.2 a halt).1 pr (by rw [hcatsa]; exact hprmem)
      have hcoE : ∃ cobj, s.catObjs[pr.2]? = some cobj := by
        unfold catOkB at hok
        rcases hx : s.catObjs[pr.2]? with _ | cobj
        · rw [hx] at hok
          simp at hok
        · exact ⟨cobj, rfl⟩
      obtain ⟨cobj, hco⟩ := hcoE
      simp only [JDStore.removeCategory, ha, hf]
      rw [← hr, getElem?_modIdx, if_pos rfl, hco]
      rfl

def storeC9 : JDStore where
  idObjs := [{ code := "11.01", parent := none }]
  catObjs := [{ code := "11", idsMap := [], parent := none },
    { code := "12", idsMap := [], parent := none }]
  areaObjs := []

/-- Counterexample to claim C9 as stated: add_id sets the Id's back-reference
and inserts it into the new category's dict but does not detach it from its
previous owner, so after adding the same Id object to two categories it is
contained in both categories' mappings at once. -/
theorem C9_counterexample :
    catHasRef (JDStore.applyOps storeC9 [JDOp.addId 0 0, JDOp.addId 1 0]) 0 0 = true
    ∧ catHasRef (JDStore.applyOps storeC9 [JDOp.addId 0 0, JDOp.addId 1 0]) 1 0 = true
    ∧ ¬ (∀ i j r,
        catHasRef (JDStore.applyOps storeC9 [JDOp.addId 0 0, JDOp.addId 1 0]) i r = true →
        catHasRef (JDStore.applyOps storeC9 [JDOp.addId 0 0, JDOp.addId 1 0]) j r = true →
        i = j) := by
  refine ⟨by decide, by decide, fun hall => ?_⟩
  exact absurd (hall 0 1 0 (by decide) (by decide)) (by decide)

/-- Claim C9 (amended): add_id / add_category insert the child into the new
parent's mapping and set its back-reference without detaching it from a
previous owner, so exclusive ownership holds only for sequences in which every
added child is detached (back-reference none) at the moment of addition.
Under that precondition, starting from a coherent store, the ownership
invariant is preserved, no Id object is referenced by two Categories and no
Category object by two Areas, and remove_id / remove_category clear the
removed child's back-reference. -/
theorem C9_ownership (s : JDStore) (ops : List JDOp) (hinv : storeInv s)
    (hval : validSeqB s ops = true) :
    storeInv (JDStore.applyOps s ops)
    ∧ (∀ i j r, catHasRef (JDStore.applyOps s ops) i r = true →
        catHasRef (JDStore.applyOps s ops) j r = true → i = j)
    ∧ (∀ i j c, areaHasRef (JDStore.applyOps s ops) i c = true →
        areaHasRef (JDStore.applyOps s ops) j c = true → i = j)
    ∧ (∀ c code r, lookupIdRef (JDStore.applyOps s ops) c code = some r →
        ((JDStore.removeId (JDStore.applyOps s ops) c code).idObjs[r]?).map IdObj.parent
          = some none)
    ∧ (∀ a code c, lookupCatRef (JDStore.applyOps s ops) a code = some c →
        ((JDStore.removeCategory (JDStore.applyOps s ops) a code).catObjs[c]?).map
          CatObj.parent = some none) := by
  have hfin := storeInv_applyOps hinv hval
  exact ⟨hfin,
    fun i j r hi hj => catRef_exclusive hfin i j r hi hj,
    fun i j c hi hj => areaRef_exclusive hfin i j c hi hj,
    fun c code r hl => removeId_clears hfin hl,
    fun a code c hl => removeCategory_clears hfin hl⟩

def s9w : JDStore where
  idObjs := [{ code := "11.01", parent := none }]
  catObjs := [{ code := "11", idsMap := [], parent := some 0 },
    { code := "12", idsMap := [], parent := none }]
  areaObjs := [{ code := "10-19", catsMap := [("11", 0)] }]

def ops9w : List JDOp :=
  [JDOp.addId 0 0, JDOp.removeId 0 "11.01", JDOp.addCategory 0 1]

/-- Witness for the amended C9 on a concrete coherent store and a valid
add/remove/add sequence. -/
theorem C9_ownership_witness :
    storeInv (JDStore.applyOps s9w ops9w)
    ∧ (∀ i j r, catHasRef (JDStore.applyOps s9w ops9w) i r = true →
        catHasRef (JDStore.applyOps s9w ops9w) j r = true → i = j)
    ∧ (∀ i j c, areaHasRef (JDStore.applyOps s9w ops9w) i c = true →
        areaHasRef (JDStore.applyOps s9w ops9w) j c = true → i = j)
    ∧ (∀ c code r, lookupIdRef (JDStore.applyOps s9w ops9w) c code = some r →
        ((JDStore.removeId (JDStore.applyOps s9w ops9w) c code).idObjs[r]?).map
          IdObj.parent = some none)
    ∧ (∀ a code c, lookupCatRef (JDStore.applyOps s9w ops9w) a code = some c →
        ((JDStore.removeCategory (JDStore.applyOps s9w ops9w) a code).catObjs[c]?).map
          CatObj.parent = some none) :=
  C9_ownership s9w ops9w (by decide) (by decide)
